import Mathlib

/-!
Shallow embedding of the Boustrophedon Cellular Decomposition of
`src/path_planning/bcd.py` (class `World`), together with proofs about the
claims of the specification.

Modelling conventions:
* Python floats are modelled as exact rationals `ℚ`.
* The point array `self.points` is a `List (ℚ × ℚ)`; a vertex id is its index.
* The `networkx.DiGraph` is an edge list `List (ℕ × ℕ × ℕ)` of
  (source, target, weight) triples; `add_edge` overwrites the weight of an
  existing (source, target) pair in place and otherwise appends, matching
  networkx insertion-order semantics that the Python code relies on
  (`G.adj`, `G.successors`, `G.predecessors` iterate in insertion order).
* `raise` is modelled with `Except String`; the two reachable failure points
  of the extraction loop are the explicit `Exception('Path Not Closed ...')`
  and the implicit `IndexError` of `cvals[0]` on an empty candidate list.
* The pipeline is embedded for sweep angle θ = 0, where the rotation matrix
  applied by `_line_sweep` is exactly the identity (`cos 0 = 1.0`,
  `sin 0 = 0.0` are exact in floating point as well).
-/

set_option allowUnsafeReducibility true
attribute [local semireducible] Rat.add Rat.sub Rat.mul Rat.div Rat.neg Rat.blt
attribute [local semireducible] Rat.normalize Rat.inv mkRat

namespace BCD

/-- A world state: the dense point array and the directed weighted graph,
mirroring `self.points` and `self.G`. -/
structure World where
  points : List (ℚ × ℚ)
  G : List (ℕ × ℕ × ℕ)
deriving DecidableEq, Repr

/-- Point lookup `self.points[i]` (claims only use in-range indices). -/
def getPt (pts : List (ℚ × ℚ)) (i : ℕ) : ℚ × ℚ :=
  pts.getD i (0, 0)

/-- `G.successors(n)` / `G.adj[n]`, in insertion order. -/
def succs (G : List (ℕ × ℕ × ℕ)) (n : ℕ) : List ℕ :=
  (G.filter (fun e => e.1 == n)).map (fun e => e.2.1)

/-- `G.predecessors(n)`, in insertion order. -/
def preds (G : List (ℕ × ℕ × ℕ)) (n : ℕ) : List ℕ :=
  (G.filter (fun e => e.2.1 == n)).map (fun e => e.1)

/-- Is the directed edge (u, v) present? -/
def hasEdge (G : List (ℕ × ℕ × ℕ)) (u v : ℕ) : Bool :=
  G.any (fun e => e.1 == u && e.2.1 == v)

/-- `G[u][v]['weight']`; 0 when the edge is absent (all real edge weights of
the program are in {1, 2, 3, 4}). -/
def getWeight (G : List (ℕ × ℕ × ℕ)) (u v : ℕ) : ℕ :=
  match G.find? (fun e => e.1 == u && e.2.1 == v) with
  | some e => e.2.2
  | none => 0

/-- `G.add_edge(u, v, weight := w)`: overwrite in place or append. -/
def addEdge (G : List (ℕ × ℕ × ℕ)) (u v w : ℕ) : List (ℕ × ℕ × ℕ) :=
  if hasEdge G u v then
    G.map (fun e => if e.1 == u && e.2.1 == v then (u, v, w) else e)
  else
    G ++ [(u, v, w)]

/-- `G.remove_edge(u, v)`. -/
def removeEdge (G : List (ℕ × ℕ × ℕ)) (u v : ℕ) : List (ℕ × ℕ × ℕ) :=
  G.filter (fun e => !(e.1 == u && e.2.1 == v))

/-- First-occurrence deduplication (dict/nodes insertion order). -/
def dedupFirst {α : Type} [DecidableEq α] (l : List α) : List α :=
  l.foldl (fun acc n => if n ∈ acc then acc else acc ++ [n]) []

/-- `G.nodes` in networkx insertion order: endpoints of edges in insertion
order, first occurrence kept. -/
def nodesG (G : List (ℕ × ℕ × ℕ)) : List ℕ :=
  dedupFirst (G.foldr (fun e acc => e.1 :: e.2.1 :: acc) [])

/-- `self._intersect_line(x, a, b)`: intersection of the vertical line at `x`
with segment `ab`, by linear interpolation in y; `None` unless `x` is
strictly between the endpoint x-coordinates. -/
def intersectLine (x : ℚ) (a b : ℚ × ℚ) : Option (ℚ × ℚ) :=
  if a.1 < x ∧ x < b.1 then
    some (x, a.2 + (|x - a.1| / |b.1 - a.1|) * (b.2 - a.2))
  else if a.1 > x ∧ x > b.1 then
    some (x, b.2 + (|x - b.1| / |a.1 - b.1|) * (a.2 - b.2))
  else
    none

/-- `self._check_edge(x, edge)`: does the edge strictly straddle `x`? -/
def checkEdge (pts : List (ℚ × ℚ)) (x : ℚ) (e : ℕ × ℕ × ℕ) : Bool :=
  ((getPt pts e.1).1 > x ∧ x > (getPt pts e.2.1).1) ∨
    ((getPt pts e.2.1).1 > x ∧ x > (getPt pts e.1).1)

/-- A collision record of `_get_intersects`. -/
structure Collision where
  vx : ℕ
  pt : ℚ × ℚ
  edge : ℕ × ℕ
  edgew : ℕ
deriving DecidableEq, Repr

/-- Python `min(..., key = lambda x: abs(x['pt'][1] - y), default = None)`:
first element attaining the minimum. -/
def minByAbs (y : ℚ) (l : List Collision) : Option Collision :=
  l.foldl
    (fun acc c =>
      match acc with
      | none => some c
      | some b => if |c.pt.2 - y| < |b.pt.2 - y| then some c else some b)
    none

/-- `self._get_intersects(event)`: the closest collision above and below the
event vertex on the vertical probe line.  `checkEdge` guarantees that
`intersectLine` returns a point, so building the collision list with
`filterMap` coincides with the Python code that stores the (always
non-`None`) intersection point directly. -/
def getIntersects (w : World) (event : ℕ) : Option Collision × Option Collision :=
  let x := (getPt w.points event).1
  let y := (getPt w.points event).2
  let collisions : List Collision :=
    (w.G.filter (checkEdge w.points x)).filterMap
      (fun e =>
        (intersectLine x (getPt w.points e.1) (getPt w.points e.2.1)).map
          (fun p => ⟨event, p, (e.1, e.2.1), e.2.2⟩))
  (minByAbs y (collisions.filter (fun c => c.pt.2 > y)),
   minByAbs y (collisions.filter (fun c => c.pt.2 < y)))

/-- `self._qcross(u, v, w)`. -/
def qcross (pts : List (ℚ × ℚ)) (u v w : ℕ) : Bool :=
  let a := getPt pts v - getPt pts u
  let b := getPt pts v - getPt pts w
  a.1 * b.2 - b.1 * a.2 ≥ 0

/-- The `Event` enum. -/
inductive Ev where
  | CLOSE
  | OPEN
  | SPLIT
  | MERGE
  | INFLECTION
  | INTERSECT
deriving DecidableEq, Repr

/-- `self._lower_upper(event)`: the last predecessor/successor reached over a
non-weight-3 edge (the Python `for` loops overwrite `vA`/`vB`, so the last
match wins); `none` models the `NameError` when no such neighbor exists. -/
def lowerUpper (w : World) (event : ℕ) : Option (ℕ × ℕ × Bool) :=
  let vA? := ((preds w.G event).filter (fun p => getWeight w.G p event != 3)).getLast?
  let vB? := ((succs w.G event).filter (fun s => getWeight w.G event s != 3)).getLast?
  match vA?, vB? with
  | some vA, some vB =>
      if qcross w.points vA event vB then some (vB, vA, true)
      else some (vA, vB, false)
  | _, _ => none

/-- `self._check_lu(event)`: event classification; the Python function falls
through (returns `None`) when a neighbor shares the event's x-coordinate. -/
def checkLU (w : World) (event : ℕ) : Option Ev :=
  match lowerUpper w event with
  | none => none
  | some (lower, upper, above) =>
      let xe := (getPt w.points event).1
      let xl := (getPt w.points lower).1
      let xu := (getPt w.points upper).1
      if xl > xe ∧ xu > xe then some (if above then Ev.OPEN else Ev.SPLIT)
      else if xl < xe ∧ xu < xe then some (if above then Ev.CLOSE else Ev.MERGE)
      else if xl > xe ∧ xu < xe then some Ev.INFLECTION
      else if xl < xe ∧ xu > xe then some Ev.INFLECTION
      else none

/-- Is the event a SPLIT or MERGE (insertion happens)? -/
def isSM (e : Ev) : Bool :=
  match e with
  | Ev.SPLIT => true
  | Ev.MERGE => true
  | _ => false

/-- Is the event critical (`[OPEN, SPLIT, MERGE, CLOSE]`)? -/
def isCrit (e : Ev) : Bool :=
  match e with
  | Ev.OPEN => true
  | Ev.SPLIT => true
  | Ev.MERGE => true
  | Ev.CLOSE => true
  | _ => false

/-- One hit-processing block of `_make_splitmerge_points` (the body of
`if a:` with `isAbove = true`, of `if b:` with `isAbove = false`): append the
hit point, add the chord pair, split the hit edge, remove the hit edge.
Returns the new world and the new vertex id. -/
def insertSide (w : World) (event : ℕ) (et : Ev) (c : Collision) (isAbove : Bool) :
    World × ℕ :=
  let pts := w.points ++ [c.pt]
  let p := pts.length - 1
  let g0 := w.G
  let g1 :=
    if isAbove then
      if et = Ev.SPLIT then addEdge (addEdge g0 p event 3) event p 4
      else if et = Ev.MERGE then addEdge (addEdge g0 p event 3) event p 4
      else g0
    else
      if et = Ev.SPLIT then addEdge (addEdge g0 event p 3) p event 4
      else if et = Ev.MERGE then addEdge (addEdge g0 event p 3) p event 4
      else g0
  let g2 := addEdge g1 c.edge.1 p c.edgew
  let g3 := addEdge g2 p c.edge.2 c.edgew
  let g4 := removeEdge g3 c.edge.1 c.edge.2
  (⟨pts, g4⟩, p)

/-- `self._make_splitmerge_points(event, event_type)`: both hits are probed
on the incoming world; the above hit is inserted first, then the below hit
(whose recorded edge and weight stem from the original probe, exactly as in
the Python code). -/
def makeSplitmergePoints (w : World) (event : ℕ) (et : Ev) :
    World × (Option ℕ × Option ℕ) :=
  let ab := getIntersects w event
  let step1 : World × Option ℕ :=
    match ab.1 with
    | some a => let r := insertSide w event et a true; (r.1, some r.2)
    | none => (w, none)
  let step2 : World × Option ℕ :=
    match ab.2 with
    | some b => let r := insertSide step1.1 event et b false; (r.1, some r.2)
    | none => (step1.1, none)
  (step2.1, (step1.2, step2.2))

/-- The mutable classification state of `_line_sweep`: the world, the added
points `A`, the critical list `crits`, and the vertex types `vtypes`. -/
structure SState where
  w : World
  A : List (ℕ × (Option ℕ × Option ℕ))
  crits : List (ℕ × Ev)
  vtypes : List (ℕ × Option Ev)
deriving DecidableEq, Repr

/-- Python dict assignment `d[k] = v`: overwrite in place or append. -/
def assocSet {α : Type} [DecidableEq α] (l : List (ℕ × α)) (k : ℕ) (v : α) :
    List (ℕ × α) :=
  if l.any (fun e => e.1 == k) then
    l.map (fun e => if e.1 == k then (k, v) else e)
  else
    l ++ [(k, v)]

/-- `self._node_classify(v, A, crits, vtypes)`. -/
def nodeClassify (s : SState) (v : ℕ) : SState :=
  match checkLU s.w v with
  | none => ⟨s.w, s.A, s.crits, assocSet s.vtypes v none⟩
  | some et =>
      let wa := if isSM et then makeSplitmergePoints s.w v et
                else (s.w, (none, none))
      let A1 := if isSM et then assocSet s.A v wa.2 else s.A
      let crits1 := if isCrit et then s.crits ++ [(v, et)] else s.crits
      let vt1 := assocSet s.vtypes v (some et)
      let vt2 :=
        match wa.2.1 with
        | some a => assocSet vt1 a (some Ev.INTERSECT)
        | none => vt1
      let vt3 :=
        match wa.2.2 with
        | some b => assocSet vt2 b (some Ev.INTERSECT)
        | none => vt2
      ⟨wa.1, A1, crits1, vt3⟩

/-- Stable insertion into a list sorted ascending by point x-coordinate. -/
def insertByX (pts : List (ℚ × ℚ)) (v : ℕ) : List ℕ → List ℕ
  | [] => [v]
  | u :: us =>
      if (getPt pts v).1 ≤ (getPt pts u).1 then v :: u :: us
      else u :: insertByX pts v us

/-- Stable sort by x-coordinate: Python `sorted(G.nodes, key = x)`. -/
def sortByX (pts : List (ℚ × ℚ)) (l : List ℕ) : List ℕ :=
  l.foldr (insertByX pts) []

/-- The classification phase of `_line_sweep` run over the event list `l`:
the folded state after `self._node_classify` on each vertex in order. -/
def sweepState (w : World) (l : List ℕ) : SState :=
  l.foldl nodeClassify ⟨w, [], [], []⟩

/-- The world component after the classification phase: the stages of the
sweep are the worlds `sweepWorld w pfx` for prefixes `pfx` of the sorted
event list. -/
def sweepWorld (w : World) (l : List ℕ) : World :=
  (sweepState w l).w

/-- Ascending insertion for the canonical set representation. -/
def insertNat (v : ℕ) : List ℕ → List ℕ
  | [] => [v]
  | u :: us => if v ≤ u then v :: u :: us else u :: insertNat v us

/-- Canonical representative of Python `set(path)`: duplicates removed and
elements sorted ascending, so that list equality is exactly set equality. -/
def setCanon (l : List ℕ) : List ℕ :=
  (dedupFirst l).foldr insertNat []

/-- `len(ci & cj)` for canonical (duplicate-free) vertex lists. -/
def interCount (a b : List ℕ) : ℕ :=
  (a.filter (fun x => x ∈ b)).length

/-- The message of the only `raise` in `_process_events`. -/
def pathMsg : String := "Path Not Closed --> Exceeded Max Path Length!"

/-- The Python `IndexError` raised by `cvals[0]` on an empty candidate list. -/
def idxMsg : String := "IndexError: list index out of range"

/-- `self._right_turn(u, v, w)` compares normalized cross products
`cross(a, b) / (‖a‖ ‖b‖)`.  We carry the exact pair
(cross(a, b), ‖a‖² ‖b‖²) as the sort key. -/
def rtKey (pts : List (ℚ × ℚ)) (u v w : ℕ) : ℚ × ℚ :=
  let a := getPt pts v - getPt pts u
  let b := getPt pts w - getPt pts v
  (a.1 * b.2 - b.1 * a.2, (a.1 * a.1 + a.2 * a.2) * (b.1 * b.1 + b.2 * b.2))

/-- Exact decision of `c1 / √n1 < c2 / √n2` for positive `n1`, `n2`: the
float comparison performed by Python's `sorted` on `_right_turn` values
(proved against the real-number semantics in `keyLT_iff` below). -/
def keyLT (k1 k2 : ℚ × ℚ) : Bool :=
  if k1.1 < 0 then (0 ≤ k2.1 ∨ k1.1 * k1.1 * k2.2 > k2.1 * k2.1 * k1.2)
  else (0 ≤ k2.1 ∧ k1.1 * k1.1 * k2.2 < k2.1 * k2.1 * k1.2)

/-- `sorted(cvals, key = lambda t: t[1])[0][0]`: the first candidate
attaining the minimal right-turn value; `none` models the `IndexError` on an
empty candidate list. -/
def pickBest (pts : List (ℚ × ℚ)) (prev node : ℕ) (cands : List ℕ) : Option ℕ :=
  match cands with
  | [] => none
  | c :: rest =>
      some (rest.foldl
        (fun b c2 =>
          if keyLT (rtKey pts prev node c2) (rtKey pts prev node b) then c2 else b)
        c)

/-- The `while path_end == False` loop of `_process_events`, with explicit
fuel.  Entered through `loopGo` with fuel `100001 - n`, the fuel never runs
out before the `n >= 1e5` abort of the source fires, so the fuel-0 fallback
(same error) is unreachable from `loopGo`. -/
def loopGoF (pts : List (ℚ × ℚ)) (G : List (ℕ × ℕ × ℕ)) (ps : ℕ) :
    ℕ → ℕ → ℕ → List ℕ → ℕ → Except String (List ℕ × ℕ)
  | 0, _, _, _, _ => Except.error pathMsg
  | fuel + 1, prev, node, path, n =>
      match pickBest pts prev node ((succs G node).filter (fun m => m != prev)) with
      | none => Except.error idxMsg
      | some best =>
          if best = ps then Except.ok (path ++ [best], node)
          else if 100000 ≤ n then Except.error pathMsg
          else loopGoF pts G ps fuel node best (path ++ [best]) (n + 1)

/-- One loop trace: start at `node` with predecessor `prev`; on success
returns the traced path and the final value of `prev_node` (which the Python
code leaves in scope for the next trace). -/
def loopGo (pts : List (ℚ × ℚ)) (G : List (ℕ × ℕ × ℕ))
    (ps prev node : ℕ) (path : List ℕ) (n : ℕ) : Except String (List ℕ × ℕ) :=
  loopGoF pts G ps (100001 - n) prev node path n

/-- The `for path_start in self.G.adj[v[0]]` loop of `_process_events`:
`prev` is threaded from one trace to the next, exactly as in the source,
where `prev_node` is initialized once before the loop. -/
def processEventsGo (pts : List (ℚ × ℚ)) (G : List (ℕ × ℕ × ℕ)) :
    List ℕ → ℕ → List (List ℕ) → Except String (List (List ℕ) × ℕ)
  | [], prev, C => Except.ok (C, prev)
  | s :: rest, prev, C =>
      match loopGo pts G s prev s [] 0 with
      | Except.error e => Except.error e
      | Except.ok (path, prevOut) =>
          let C1 := if setCanon path ∈ C then C else C ++ [setCanon path]
          processEventsGo pts G rest prevOut C1

/-- `self._process_events(v, vtypes, C)` (the `vtypes` parameter is unused in
the source); returns the updated cell list. -/
def processEvents (w : World) (v : ℕ) (C : List (List ℕ)) :
    Except String (List (List ℕ)) :=
  (processEventsGo w.points w.G (succs w.G v) v C).map (fun r => r.1)

/-- The cell-extraction loop as the specification words it (§4.5): each
trace is initialized with `prev = v`.  This definition follows the spec, not
the source; it is compared with `processEvents` for the refinement claim
about per-trace initialization. -/
def processEventsSpecGo (pts : List (ℚ × ℚ)) (G : List (ℕ × ℕ × ℕ)) (v : ℕ) :
    List ℕ → List (List ℕ) → Except String (List (List ℕ))
  | [], C => Except.ok C
  | s :: rest, C =>
      match loopGo pts G s v s [] 0 with
      | Except.error e => Except.error e
      | Except.ok (path, _) =>
          let C1 := if setCanon path ∈ C then C else C ++ [setCanon path]
          processEventsSpecGo pts G v rest C1

/-- Spec-worded cell extraction (per-trace initialization `prev = v`). -/
def processEventsSpec (w : World) (v : ℕ) (C : List (List ℕ)) :
    Except String (List (List ℕ)) :=
  processEventsSpecGo w.points w.G v (succs w.G v) C

/-- `self._line_sweep(theta)` at θ = 0 (rotation by the identity matrix):
sort the nodes by x, classify each (mutating the world), then extract cells
from each critical vertex.  Returns the final world and the cell list. -/
def lineSweep0 (w : World) : Except String (World × List (List ℕ)) :=
  let st := sweepState w (sortByX w.points (nodesG w.G))
  (st.crits.foldlM (fun C ve => processEvents st.w ve.1 C) ([] : List (List ℕ))).map
    (fun C => (st.w, C))

/-- The edge list built by `_build_reebgraph`: one entry per ordered pair
`(i, j)` of cell indices (the source does not exclude `i = j`) whose vertex
sets share at least two vertices. -/
def reebEdges (cells : List (List ℕ)) : List (ℕ × ℕ) :=
  (List.range cells.length).foldr
    (fun i acc =>
      ((List.range cells.length).filterMap
        (fun j =>
          if 2 ≤ interCount (cells.getD i []) (cells.getD j []) then some (i, j)
          else none)) ++ acc)
    []

/-- The node list of the resulting `networkx.Graph` (nodes are created by
`add_edges_from`, in insertion order). -/
def reebNodes (cells : List (List ℕ)) : List ℕ :=
  dedupFirst ((reebEdges cells).foldr (fun e acc => e.1 :: e.2 :: acc) [])

/-- The number of undirected edges of the Reeb graph ((i, j) and (j, i)
collapse; a self-loop counts as one edge, as in networkx). -/
def reebEdgeCount (cells : List (List ℕ)) : ℕ :=
  (dedupFirst ((reebEdges cells).map
    (fun e => if e.1 ≤ e.2 then (e.1, e.2) else (e.2, e.1)))).length

/-- Decidable equality for `Except`, used to evaluate concrete runs. -/
instance instDecEqExcept {ε α : Type} [DecidableEq ε] [DecidableEq α] :
    DecidableEq (Except ε α)
  | Except.error x, Except.error y => decidable_of_iff (x = y) (by simp)
  | Except.error _, Except.ok _ => Decidable.isFalse (by simp)
  | Except.ok _, Except.error _ => Decidable.isFalse (by simp)
  | Except.ok x, Except.ok y => decidable_of_iff (x = y) (by simp)

/-- Well-formedness of a world, as guaranteed by the input contract (§6) and
by networkx: edge endpoints are valid point indices, weights are nonzero,
and each ordered vertex pair carries at most one edge. -/
def WFW (w : World) : Prop :=
  (∀ e ∈ w.G, e.1 < w.points.length ∧ e.2.1 < w.points.length ∧ e.2.2 ≠ 0) ∧
    (w.G.map (fun e => (e.1, e.2.1))).Nodup

/-- The chord invariant: every edge of weight 3 or 4 is vertical (both
endpoints on the probe line of the event that created it) and its reverse
edge carries the companion weight. -/
def ChordInv (w : World) : Prop :=
  ∀ e ∈ w.G, e.2.2 = 3 ∨ e.2.2 = 4 →
    (getPt w.points e.1).1 = (getPt w.points e.2.1).1 ∧
      (e.2.1, e.1, if e.2.2 = 3 then 4 else 3) ∈ w.G

/-- What `_get_intersects` guarantees about a returned collision: its edge is
in the graph with the recorded weight, strictly straddles the probe line,
and its point is the recorded intersection. -/
def CollisionOK (w : World) (event : ℕ) (c : Collision) : Prop :=
  (c.edge.1, c.edge.2, c.edgew) ∈ w.G ∧
    checkEdge w.points (getPt w.points event).1 (c.edge.1, c.edge.2, c.edgew) = true ∧
    intersectLine (getPt w.points event).1 (getPt w.points c.edge.1)
      (getPt w.points c.edge.2) = some c.pt

/-- The part of `CollisionOK` that the insertion block needs (stable under
point appends and unrelated edge rewiring). -/
def HitOK (w : World) (event : ℕ) (c : Collision) : Prop :=
  (c.edge.1, c.edge.2, c.edgew) ∈ w.G ∧
    checkEdge w.points (getPt w.points event).1 (c.edge.1, c.edge.2, c.edgew) = true ∧
    c.pt.1 = (getPt w.points event).1

/-- The chord pair added by the insertion block at new vertex `p` for event
vertex `event` (identical for SPLIT and MERGE in the source; the direction
depends only on whether the hit is above or below). -/
def chordPair (p event : ℕ) (ab : Bool) : List (ℕ × ℕ × ℕ) :=
  if ab then [(p, event, 3), (event, p, 4)] else [(event, p, 3), (p, event, 4)]

/-- A decidable trap certificate for the extraction loop: from every
(prev, node) state in `S` the most-clockwise step stays inside `S` and never
reaches the start vertex `ps`. -/
def stepOk (pts : List (ℚ × ℚ)) (G : List (ℕ × ℕ × ℕ)) (ps : ℕ)
    (S : List (ℕ × ℕ)) : Bool :=
  S.all (fun pn =>
    match pickBest pts pn.1 pn.2 ((succs G pn.2).filter (fun m => m != pn.1)) with
    | some b => decide (b ≠ ps) && decide ((pn.2, b) ∈ S)
    | none => false)

/-- The axis-aligned rectangle scenario of the spec: vertices
(0,0), (4,0), (4,2), (0,2), boundary loop of weight-1 edges, θ = 0. -/
def rectWorld : World :=
  ⟨[(0, 0), (4, 0), (4, 2), (0, 2)], [(0, 1, 1), (1, 2, 1), (2, 3, 1), (3, 0, 1)]⟩

/-- A world whose vertex 0 has a below hit (edge 1→2) and no above hit on
the probe line x = 2. -/
def mergeBelowWorld : World :=
  ⟨[(2, 0), (0, -2), (4, -2)], [(1, 2, 1)]⟩

/-- A world for the classifier: vertex 0 with non-chord predecessor 1 and
non-chord successor 2, both strictly to its right. -/
def classifierWorld : World :=
  ⟨[(0, 0), (1, 1), (1, -1)], [(1, 0, 1), (0, 2, 1)]⟩

/-- A world whose vertex 0 has a below hit (edge 1→2) and no above hit on
the probe line x = 1 (for the missing-side behaviour of the sweep). -/
def belowOnlyWorld : World :=
  ⟨[(1, 0), (0, -2), (2, -2)], [(1, 2, 1)]⟩

/-- A world whose vertex 0 has an above hit (edge 1→2) and no below hit on
the probe line x = 1. -/
def aboveOnlyWorld : World :=
  ⟨[(1, 2), (0, 4), (2, 4)], [(1, 2, 1)]⟩

/-- A graph on which the two traces from vertex 0 expose the stale
`prev_node` of the source: the second trace starts with `prev_node = 4`
(left over from the first trace) instead of 0. -/
def staleWorld : World :=
  ⟨[(0, 0), (0, 2), (4, 0), (8, 0), (6, -2), (4, -4), (6, 2), (4, 2)],
   [(0, 1, 1), (0, 2, 1), (1, 3, 1), (3, 4, 1), (4, 1, 1), (4, 5, 1),
    (2, 4, 1), (2, 6, 1), (5, 2, 1), (6, 7, 1), (7, 2, 1)]⟩

/-- A triangle: vertex 0 has a single outgoing neighbor. -/
def triWorld : World :=
  ⟨[(0, 0), (1, 0), (0, 1)], [(0, 1, 1), (1, 2, 1), (2, 0, 1)]⟩

/-- A clockwise pentagon with one concave vertex (vertex 4, a MERGE): the
sweep inserts one chord pair above and one below it. -/
def pentWorld : World :=
  ⟨[(0, 0), (6, 0), (6, 4), (0, 4), (2, 2)],
   [(0, 4, 1), (4, 3, 1), (3, 2, 1), (2, 1, 1), (1, 0, 1)]⟩

/-- Points of a graph whose extraction trace from vertex 1 enters the cycle
2 → 3 → 4 → 2 and never returns to 1. -/
def cyclePtsA : List (ℚ × ℚ) := [(0, 0), (1, 0), (2, 0), (3, 0), (4, 0)]

/-- Edges of the non-closing trace graph on vertices 0..4. -/
def cycleGA : List (ℕ × ℕ × ℕ) :=
  [(0, 1, 1), (1, 2, 1), (2, 3, 1), (3, 4, 1), (4, 2, 1)]

/-- The same non-closing trace graph shifted to vertices 10..14. -/
def cyclePtsB : List (ℚ × ℚ) :=
  [(0, 0), (0, 0), (0, 0), (0, 0), (0, 0), (0, 0), (0, 0), (0, 0), (0, 0),
   (0, 0), (0, 0), (1, 0), (2, 0), (3, 0), (4, 0)]

/-- Edges of the shifted non-closing trace graph. -/
def cycleGB : List (ℕ × ℕ × ℕ) :=
  [(10, 11, 1), (11, 12, 1), (12, 13, 1), (13, 14, 1), (14, 12, 1)]

/-- C9: for every query `x` and segment endpoints `a`, `b`, the
horizontal-line/edge intersection returns the point on `ab` at `px = x`
obtained by linear interpolation in y if and only if `x` lies strictly
between `a.1` and `b.1`; it returns `none` otherwise, and in the returned
case the interpolation divisor is nonzero, so the computation is total. -/
theorem C9_intersect_vertical (x : ℚ) (a b : ℚ × ℚ) :
    (((a.1 < x ∧ x < b.1) ∨ (b.1 < x ∧ x < a.1)) →
      intersectLine x a b =
        some (x, a.2 + (x - a.1) / (b.1 - a.1) * (b.2 - a.2)) ∧ b.1 - a.1 ≠ 0) ∧
    (¬((a.1 < x ∧ x < b.1) ∨ (b.1 < x ∧ x < a.1)) →
      intersectLine x a b = none) := by
  constructor
  · rintro (⟨h1, h2⟩ | ⟨h1, h2⟩)
    · have hne : b.1 - a.1 ≠ 0 := by
        have : a.1 < b.1 := lt_trans h1 h2
        intro hc; simp only [sub_eq_zero] at hc; exact absurd hc (ne_of_gt this)
      refine ⟨?_, hne⟩
      unfold intersectLine
      rw [if_pos ⟨h1, h2⟩]
      have e1 : |x - a.1| = x - a.1 := abs_of_pos (by linarith)
      have e2 : |b.1 - a.1| = b.1 - a.1 := abs_of_pos (by linarith)
      rw [e1, e2]
    · have hlt : b.1 < a.1 := lt_trans h1 h2
      have hne : b.1 - a.1 ≠ 0 := by
        intro hc; simp only [sub_eq_zero] at hc; exact absurd hc (ne_of_lt hlt)
      refine ⟨?_, hne⟩
      unfold intersectLine
      rw [if_neg (by rintro ⟨hA, hB⟩; linarith), if_pos ⟨h2, h1⟩]
      have e1 : |x - b.1| = x - b.1 := abs_of_pos (by linarith)
      have e2 : |a.1 - b.1| = a.1 - b.1 := abs_of_pos (by linarith)
      rw [e1, e2]
      have hne2 : a.1 - b.1 ≠ 0 := by
        intro hc; simp only [sub_eq_zero] at hc; exact absurd hc (ne_of_gt hlt)
      congr 1
      rw [Prod.mk.injEq]
      refine ⟨rfl, ?_⟩
      field_simp
      ring
  · intro h
    push_neg at h
    obtain ⟨hA, hB⟩ := h
    unfold intersectLine
    rw [if_neg (by rintro ⟨u1, u2⟩; exact absurd u2 (not_lt.mpr (hA u1))),
      if_neg (by rintro ⟨u1, u2⟩; exact absurd u1 (not_lt.mpr (hB u2)))]

/-- Closed witness for C9 at x = 1, a = (0, 0), b = (2, 4). -/
theorem C9_intersect_vertical_w :
    intersectLine 1 ((0 : ℚ), (0 : ℚ)) ((2 : ℚ), (4 : ℚ)) =
      some (1, 0 + (1 - 0) / (2 - 0) * (4 - 0)) ∧ (2 : ℚ) - 0 ≠ 0 :=
  (C9_intersect_vertical 1 ((0 : ℚ), (0 : ℚ)) ((2 : ℚ), (4 : ℚ))).1
    (Or.inl (by constructor <;> norm_num))

/-- C10: if at some step of the extraction loop the current node has no
graph-adjacent (successor) neighbor other than the previous node, the step
fails with the out-of-range `IndexError` of `cvals[0]` on the empty candidate
list, which is not the Path-Not-Closed decomposition error. -/
theorem C10_empty_candidates (pts : List (ℚ × ℚ)) (G : List (ℕ × ℕ × ℕ))
    (ps fuel prev node : ℕ) (path : List ℕ) (n : ℕ) (hfuel : fuel ≠ 0)
    (h : (succs G node).filter (fun m => m != prev) = []) :
    loopGoF pts G ps fuel prev node path n = Except.error idxMsg ∧
      idxMsg ≠ pathMsg := by
  obtain ⟨f, rfl⟩ : ∃ f, fuel = f + 1 :=
    ⟨fuel - 1, (Nat.succ_pred_eq_of_pos (Nat.pos_of_ne_zero hfuel)).symm⟩
  refine ⟨?_, by decide⟩
  rw [loopGoF, h]
  rfl

/-- Closed witness for C10: node 1 of the single-edge graph 0 → 1 has no
successors at all. -/
theorem C10_empty_candidates_w :
    loopGoF [] [(0, 1, 1)] 0 1 0 1 [] 0 = Except.error idxMsg ∧
      idxMsg ≠ pathMsg :=
  C10_empty_candidates [] [(0, 1, 1)] 0 1 0 1 [] 0 (by decide) (by decide)

/-- If every state of `S` steps inside `S` without reaching the start
vertex, the extraction loop started in `S` can only end in the
Path-Not-Closed abort. -/
theorem loop_trapped (pts : List (ℚ × ℚ)) (G : List (ℕ × ℕ × ℕ)) (ps : ℕ)
    (S : List (ℕ × ℕ)) (hS : stepOk pts G ps S = true) :
    ∀ fuel prev node path n, (prev, node) ∈ S →
      loopGoF pts G ps fuel prev node path n = Except.error pathMsg := by
  intro fuel
  induction fuel with
  | zero => intro prev node path n _; rfl
  | succ f ih =>
      intro prev node path n hmem
      have hstep := List.all_eq_true.mp hS (prev, node) hmem
      cases hpb : pickBest pts prev node ((succs G node).filter (fun m => m != prev)) with
      | none => rw [hpb] at hstep; cases hstep
      | some b =>
          rw [hpb] at hstep
          simp only [Bool.and_eq_true, decide_eq_true_eq] at hstep
          rw [loopGoF, hpb]
          simp only
          rw [if_neg hstep.1]
          by_cases hn : 100000 ≤ n
          · rw [if_pos hn]
          · rw [if_neg hn]; exact ih node b (path ++ [b]) (n + 1) hstep.2

/-- Counterexample for C8: two extraction traces on different graphs, with
different offending start vertices (1 with predecessor 0, 11 with
predecessor 10), both exhaust the 10⁵ step bound and abort with the very
same error value; the error therefore carries neither the offending vertex
id nor the event kind. -/
theorem C8_same_error_cx :
    loopGo cyclePtsA cycleGA 1 0 1 [] 0 = Except.error pathMsg ∧
      loopGo cyclePtsB cycleGB 11 10 11 [] 0 = Except.error pathMsg := by
  constructor
  · exact loop_trapped cyclePtsA cycleGA 1
      [(0, 1), (1, 2), (2, 3), (3, 4), (4, 2)] (by decide) _ 0 1 [] 0 (by decide)
  · exact loop_trapped cyclePtsB cycleGB 11
      [(10, 11), (11, 12), (12, 13), (13, 14), (14, 12)] (by decide) _ 10 11 [] 0
      (by decide)

/-- C8 (amended): when a trace reaches the safety bound (10⁵ steps) without
returning to its start, the loop aborts with the fatal Path-Not-Closed
error, and every error the loop can return is one of the two fixed strings
(`pathMsg`, `idxMsg`) — in particular it carries no vertex id and no event
kind. -/
theorem C8_abort_fixed_message :
    (∀ (pts : List (ℚ × ℚ)) (G : List (ℕ × ℕ × ℕ)) (ps fuel prev node : ℕ)
        (path : List ℕ) (n best : ℕ), fuel ≠ 0 →
        pickBest pts prev node ((succs G node).filter (fun m => m != prev)) =
          some best →
        best ≠ ps → 100000 ≤ n →
        loopGoF pts G ps fuel prev node path n = Except.error pathMsg) ∧
    (∀ (pts : List (ℚ × ℚ)) (G : List (ℕ × ℕ × ℕ)) (ps fuel prev node : ℕ)
        (path : List ℕ) (n : ℕ) (e : String),
        loopGoF pts G ps fuel prev node path n = Except.error e →
        e = pathMsg ∨ e = idxMsg) := by
  constructor
  · intro pts G ps fuel prev node path n best hfuel hpb hne hn
    obtain ⟨f, rfl⟩ : ∃ f, fuel = f + 1 :=
      ⟨fuel - 1, (Nat.succ_pred_eq_of_pos (Nat.pos_of_ne_zero hfuel)).symm⟩
    rw [loopGoF, hpb]
    simp only
    rw [if_neg hne, if_pos hn]
  · intro pts G ps fuel
    induction fuel with
    | zero =>
        intro prev node path n e he
        rw [loopGoF] at he
        exact Or.inl (Except.error.inj he).symm
    | succ f ih =>
        intro prev node path n e he
        rw [loopGoF] at he
        cases hpb : pickBest pts prev node
            ((succs G node).filter (fun m => m != prev)) with
        | none =>
            rw [hpb] at he
            exact Or.inr (Except.error.inj he).symm
        | some best =>
            rw [hpb] at he
            simp only at he
            by_cases h1 : best = ps
            · rw [if_pos h1] at he; cases he
            · rw [if_neg h1] at he
              by_cases h2 : 100000 ≤ n
              · rw [if_pos h2] at he
                exact Or.inl (Except.error.inj he).symm
              · rw [if_neg h2] at he
                exact ih node best (path ++ [best]) (n + 1) e he

/-- Closed witness for C8: both conjuncts applied at a concrete state with
the step budget exhausted. -/
theorem C8_abort_fixed_message_w :
    loopGoF cyclePtsA cycleGA 1 5 0 1 [] 100000 = Except.error pathMsg ∧
      (pathMsg = pathMsg ∨ pathMsg = idxMsg) := by
  have h1 := C8_abort_fixed_message.1 cyclePtsA cycleGA 1 5 0 1 [] 100000 2
    (by decide) (by decide) (by decide) (by decide)
  exact ⟨h1, C8_abort_fixed_message.2 cyclePtsA cycleGA 1 5 0 1 [] 100000 pathMsg h1⟩

/-- C3: when `vA` is the unique non-chord (weight ≠ 3) predecessor of `v` and
`vB` its unique non-chord successor, the classifier computes
`above = qcross(vA, v, vB)`, sets `(lower, upper) = (vB, vA)` if `above` else
`(vA, vB)`, and classifies OPEN / SPLIT / CLOSE / MERGE / INFLECTION from the
strict x-comparisons of lower and upper against `v`, exactly as claimed. -/
theorem C3_classifier (w : World) (v vA vB : ℕ) (above : Bool) (lo up : ℕ)
    (hA : (preds w.G v).filter (fun p => getWeight w.G p v != 3) = [vA])
    (hB : (succs w.G v).filter (fun s => getWeight w.G v s != 3) = [vB])
    (hab : above = qcross w.points vA v vB)
    (hlo : lo = if above then vB else vA)
    (hup : up = if above then vA else vB) :
    lowerUpper w v = some (lo, up, above) ∧
      ((getPt w.points lo).1 > (getPt w.points v).1 →
        (getPt w.points up).1 > (getPt w.points v).1 → above = true →
        checkLU w v = some Ev.OPEN) ∧
      ((getPt w.points lo).1 > (getPt w.points v).1 →
        (getPt w.points up).1 > (getPt w.points v).1 → above = false →
        checkLU w v = some Ev.SPLIT) ∧
      ((getPt w.points lo).1 < (getPt w.points v).1 →
        (getPt w.points up).1 < (getPt w.points v).1 → above = true →
        checkLU w v = some Ev.CLOSE) ∧
      ((getPt w.points lo).1 < (getPt w.points v).1 →
        (getPt w.points up).1 < (getPt w.points v).1 → above = false →
        checkLU w v = some Ev.MERGE) ∧
      ((getPt w.points lo).1 > (getPt w.points v).1 →
        (getPt w.points up).1 < (getPt w.points v).1 →
        checkLU w v = some Ev.INFLECTION) ∧
      ((getPt w.points lo).1 < (getPt w.points v).1 →
        (getPt w.points up).1 > (getPt w.points v).1 →
        checkLU w v = some Ev.INFLECTION) := by
  subst hab hlo hup
  have hlu : lowerUpper w v =
      some (if qcross w.points vA v vB then vB else vA,
        if qcross w.points vA v vB then vA else vB, qcross w.points vA v vB) := by
    unfold lowerUpper
    rw [hA, hB]
    cases hq : qcross w.points vA v vB <;> simp [hq]
  refine ⟨hlu, ?_, ?_, ?_, ?_, ?_, ?_⟩
  · intro h1 h2 h3
    unfold checkLU
    rw [hlu]
    simp only
    rw [if_pos ⟨h1, h2⟩, h3]
    rfl
  · intro h1 h2 h3
    unfold checkLU
    rw [hlu]
    simp only
    rw [if_pos ⟨h1, h2⟩, h3]
    rfl
  · intro h1 h2 h3
    unfold checkLU
    rw [hlu]
    simp only
    rw [if_neg (by rintro ⟨u1, u2⟩; exact absurd u1 (lt_asymm h1)),
      if_pos ⟨h1, h2⟩, h3]
    rfl
  · intro h1 h2 h3
    unfold checkLU
    rw [hlu]
    simp only
    rw [if_neg (by rintro ⟨u1, u2⟩; exact absurd u1 (lt_asymm h1)),
      if_pos ⟨h1, h2⟩, h3]
    rfl
  · intro h1 h2
    unfold checkLU
    rw [hlu]
    simp only
    rw [if_neg (by rintro ⟨u1, u2⟩; exact absurd u2 (lt_asymm h2)),
      if_neg (by rintro ⟨u1, u2⟩; exact absurd u1 (lt_asymm h1)),
      if_pos ⟨h1, h2⟩]
  · intro h1 h2
    unfold checkLU
    rw [hlu]
    simp only
    rw [if_neg (by rintro ⟨u1, u2⟩; exact absurd u1 (lt_asymm h1)),
      if_neg (by rintro ⟨u1, u2⟩; exact absurd u2 (lt_asymm h2)),
      if_neg (by rintro ⟨u1, u2⟩; exact absurd u1 (lt_asymm h1)),
      if_pos ⟨h1, h2⟩]

/-- Closed witness for C3 on `classifierWorld`: vertex 0 has predecessor 1
and successor 2, both strictly to the right, `above` is false, so the
classification is SPLIT. -/
theorem C3_classifier_w : checkLU classifierWorld 0 = some Ev.SPLIT :=
  (C3_classifier classifierWorld 0 1 2 false 1 2 (by decide) (by decide)
    (by decide) (by decide) (by decide)).2.2.1 (by decide) (by decide) rfl

/-- Fuel monotonicity: a successful trace is unchanged by surplus fuel, so
concrete runs can be evaluated with small fuel and lifted to the real entry
fuel of `loopGo`. -/
theorem loopGoF_mono (pts : List (ℚ × ℚ)) (G : List (ℕ × ℕ × ℕ)) (ps : ℕ) :
    ∀ f f' prev node path n r, f ≤ f' →
      loopGoF pts G ps f prev node path n = Except.ok r →
      loopGoF pts G ps f' prev node path n = Except.ok r := by
  intro f
  induction f with
  | zero => intro f' prev node path n r _ h; cases h
  | succ g ih =>
      intro f' prev node path n r hle h
      obtain ⟨g', rfl⟩ : ∃ k, f' = k + 1 :=
        ⟨f' - 1, (Nat.succ_pred_eq_of_pos (lt_of_lt_of_le (Nat.succ_pos g) hle)).symm⟩
      rw [loopGoF] at h ⊢
      cases hpb : pickBest pts prev node ((succs G node).filter (fun m => m != prev)) with
      | none => rw [hpb] at h; cases h
      | some best =>
          rw [hpb] at h
          simp only at h ⊢
          by_cases h1 : best = ps
          · rw [if_pos h1] at h ⊢; exact h
          · rw [if_neg h1] at h ⊢
            by_cases h2 : 100000 ≤ n
            · rw [if_pos h2] at h; cases h
            · rw [if_neg h2] at h ⊢
              exact ih g' node best (path ++ [best]) (n + 1) r
                (Nat.succ_le_succ_iff.mp hle) h

/-- Entry-point form of fuel monotonicity for traces started at step 0. -/
theorem loopGo_eval (pts : List (ℚ × ℚ)) (G : List (ℕ × ℕ × ℕ))
    (ps prev node : ℕ) (r : List ℕ × ℕ) (f : ℕ) (hf : f ≤ 100001)
    (h : loopGoF pts G ps f prev node [] 0 = Except.ok r) :
    loopGo pts G ps prev node [] 0 = Except.ok r :=
  loopGoF_mono pts G ps f (100001 - 0) prev node [] 0 r hf h

/-- Counterexample for C5: on `staleWorld` the two traces from critical
vertex 0 do NOT both begin with predecessor 0: the second trace starts with
the `prev_node` left over from the first trace (vertex 4), so the extracted
cells differ from those of the per-trace-initialized extraction the claim
describes ({2, 6, 7} instead of {2, 4, 5}). -/
theorem C5_stale_prev_cx :
    processEvents staleWorld 0 [] = Except.ok [[1, 3, 4], [2, 6, 7]] ∧
      processEventsSpec staleWorld 0 [] = Except.ok [[1, 3, 4], [2, 4, 5]] ∧
      processEvents staleWorld 0 [] ≠ processEventsSpec staleWorld 0 [] := by
  have h1 : loopGo staleWorld.points staleWorld.G 1 0 1 [] 0 =
      Except.ok ([3, 4, 1], 4) :=
    loopGo_eval _ _ 1 0 1 _ 10 (by decide) (by decide)
  have h2 : loopGo staleWorld.points staleWorld.G 2 4 2 [] 0 =
      Except.ok ([6, 7, 2], 7) :=
    loopGo_eval _ _ 2 4 2 _ 10 (by decide) (by decide)
  have h3 : loopGo staleWorld.points staleWorld.G 2 0 2 [] 0 =
      Except.ok ([4, 5, 2], 5) :=
    loopGo_eval _ _ 2 0 2 _ 10 (by decide) (by decide)
  have hs : succs staleWorld.G 0 = [1, 2] := by decide
  have hcode : processEvents staleWorld 0 [] = Except.ok [[1, 3, 4], [2, 6, 7]] := by
    unfold processEvents
    rw [hs, processEventsGo, h1]
    simp only
    rw [if_neg (by decide), processEventsGo, h2]
    simp only
    rw [if_neg (by decide), processEventsGo]
    rfl
  have hspec : processEventsSpec staleWorld 0 [] =
      Except.ok [[1, 3, 4], [2, 4, 5]] := by
    unfold processEventsSpec
    rw [hs, processEventsSpecGo, h1]
    simp only
    rw [if_neg (by decide), processEventsSpecGo, h3]
    simp only
    rw [if_neg (by decide), processEventsSpecGo]
    decide
  exact ⟨hcode, hspec, by rw [hcode, hspec]; decide⟩

/-- C5 (amended): only the first trace from a critical vertex is guaranteed
to begin with predecessor `v`; in particular, when `v` has exactly one
outgoing neighbor the source extraction agrees with the per-trace
initialized extraction of the spec. -/
theorem C5_single_successor (w : World) (v s : ℕ) (C : List (List ℕ))
    (h : succs w.G v = [s]) :
    processEvents w v C = processEventsSpec w v C := by
  unfold processEvents processEventsSpec
  rw [h]
  show (processEventsGo w.points w.G [s] v C).map (fun r => r.1) =
    processEventsSpecGo w.points w.G v [s] C
  rw [processEventsGo, processEventsSpecGo]
  cases hl : loopGo w.points w.G s v s [] 0 with
  | error e => rfl
  | ok r => rfl

/-- Closed witness for C5 on the triangle, whose vertex 0 has the single
outgoing neighbor 1. -/
theorem C5_single_successor_w :
    processEvents triWorld 0 [] = processEventsSpec triWorld 0 [] :=
  C5_single_successor triWorld 0 1 [] rfl

/-- C1 evaluated on the failing input: on the axis-aligned rectangle with
θ = 0 every vertex shares its x-coordinate with a neighbor, the strict
comparisons of `_check_lu` all fail, no vertex is critical, and the
decomposition returns 0 cells — hence a Reeb graph with 0 nodes and 0 edges,
not 1 node; moreover `_build_reebgraph` does not restrict to distinct pairs:
a single cell of ≥ 2 vertices yields the self-loop edge (0, 0), so 1 cell
would give 1 node and 1 edge, also contradicting the claimed 0 edges. -/
theorem C1_rectangle_eval :
    (lineSweep0 rectWorld).map (fun r => r.2) =
        Except.ok ([] : List (List ℕ)) ∧
      reebEdges [] = [] ∧ reebNodes [] = [] ∧ reebEdgeCount [] = 0 ∧
      reebEdges [[0, 1, 2, 3]] = [(0, 0)] ∧
      reebNodes [[0, 1, 2, 3]] = [0] ∧
      reebEdgeCount [[0, 1, 2, 3]] = 1 := by
  refine ⟨by decide, rfl, rfl, rfl, by decide, by decide, by decide⟩

/-- Membership in `removeEdge`. -/
theorem mem_removeEdge {G : List (ℕ × ℕ × ℕ)} {u v : ℕ} {e : ℕ × ℕ × ℕ} :
    e ∈ removeEdge G u v ↔ e ∈ G ∧ ¬(e.1 = u ∧ e.2.1 = v) := by
  unfold removeEdge
  rw [List.mem_filter]
  constructor
  · rintro ⟨hm, hb⟩
    refine ⟨hm, fun hc => ?_⟩
    rw [hc.1, hc.2] at hb
    simp at hb
  · rintro ⟨hm, hnc⟩
    refine ⟨hm, ?_⟩
    simp only [Bool.not_eq_true', Bool.and_eq_false_iff, beq_eq_false_iff_ne, ne_eq]
    tauto

/-- `hasEdge` in terms of membership. -/
theorem hasEdge_iff {G : List (ℕ × ℕ × ℕ)} {u v : ℕ} :
    hasEdge G u v = true ↔ ∃ e ∈ G, e.1 = u ∧ e.2.1 = v := by
  simp [hasEdge]

/-- `hasEdge = false` in terms of membership. -/
theorem hasEdge_eq_false {G : List (ℕ × ℕ × ℕ)} {u v : ℕ} :
    hasEdge G u v = false ↔ ∀ e ∈ G, ¬(e.1 = u ∧ e.2.1 = v) := by
  simp [hasEdge, -not_and]

/-- Adding an absent edge appends it. -/
theorem addEdge_not_present {G : List (ℕ × ℕ × ℕ)} {u v w : ℕ}
    (h : hasEdge G u v = false) : addEdge G u v w = G ++ [(u, v, w)] := by
  simp [addEdge, h]

/-- With no duplicate (source, target) pairs, a member edge determines the
weight returned by `getWeight`. -/
theorem getWeight_eq_of_mem {G : List (ℕ × ℕ × ℕ)} {u v wt : ℕ}
    (hnd : (G.map (fun e => (e.1, e.2.1))).Nodup) (hm : (u, v, wt) ∈ G) :
    getWeight G u v = wt := by
  induction G with
  | nil => cases hm
  | cons e G ih =>
      rw [List.map_cons, List.nodup_cons] at hnd
      rcases List.mem_cons.mp hm with he | hm2
      · subst he
        unfold getWeight
        rw [List.find?_cons_of_pos _ (by simp)]
      · by_cases hp : e.1 = u ∧ e.2.1 = v
        · exfalso
          exact hnd.1 (by
            rw [hp.1, hp.2]
            exact List.mem_map.mpr ⟨(u, v, wt), hm2, rfl⟩)
        · unfold getWeight
          rw [List.find?_cons_of_neg _ (by simpa using hp)]
          exact ih hnd.2 hm2

/-- A nonzero `getWeight` comes from a member edge. -/
theorem mem_of_getWeight_ne_zero {G : List (ℕ × ℕ × ℕ)} {u v : ℕ}
    (h : getWeight G u v ≠ 0) : (u, v, getWeight G u v) ∈ G := by
  unfold getWeight at h ⊢
  cases hf : G.find? (fun e => e.1 == u && e.2.1 == v) with
  | none => rw [hf] at h; exact absurd rfl h
  | some e =>
      simp only
      have hmem := List.mem_of_find?_eq_some hf
      have hpred := List.find?_some hf
      simp only [Bool.and_eq_true, beq_iff_eq] at hpred
      obtain ⟨e1, e2, e3⟩ := e
      obtain ⟨rfl, rfl⟩ := hpred
      exact hmem

/-- Appending points does not change earlier entries. -/
theorem getPt_append_lt {pts : List (ℚ × ℚ)} {l : List (ℚ × ℚ)} {i : ℕ}
    (h : i < pts.length) : getPt (pts ++ l) i = getPt pts i := by
  unfold getPt
  simp [List.getD_eq_getElem?_getD, List.getElem?_append, h]

/-- The appended point is read back at the old length. -/
theorem getPt_append_len {pts : List (ℚ × ℚ)} {a : ℚ × ℚ} :
    getPt (pts ++ [a]) pts.length = a := by
  unfold getPt
  rw [List.getD_eq_getElem?_getD, List.getElem?_append_right (le_refl _)]
  simp

/-- A straddling edge has both endpoint x-coordinates different from the
probe coordinate (and from each other). -/
theorem checkEdge_facts {pts : List (ℚ × ℚ)} {x : ℚ} {e : ℕ × ℕ × ℕ}
    (h : checkEdge pts x e = true) :
    (getPt pts e.1).1 ≠ x ∧ (getPt pts e.2.1).1 ≠ x ∧
      (getPt pts e.1).1 ≠ (getPt pts e.2.1).1 := by
  unfold checkEdge at h
  simp only [decide_eq_true_eq] at h
  rcases h with ⟨h1, h2⟩ | ⟨h1, h2⟩
  · exact ⟨ne_of_gt h1, ne_of_lt h2,
      by intro hc; rw [hc] at h1; exact absurd h2 (lt_asymm h1)⟩
  · exact ⟨ne_of_lt h2, ne_of_gt h1,
      by intro hc; rw [hc] at h2; exact absurd h1 (lt_asymm h2)⟩

/-- `checkEdge` only looks at the endpoint coordinates, so it is unchanged
by appending points. -/
theorem checkEdge_append {pts l : List (ℚ × ℚ)} {x : ℚ} {e : ℕ × ℕ × ℕ}
    (h1 : e.1 < pts.length) (h2 : e.2.1 < pts.length) :
    checkEdge (pts ++ l) x e = checkEdge pts x e := by
  unfold checkEdge
  rw [getPt_append_lt h1, getPt_append_lt h2]

/-- The vertical intersection point lies on the probe line. -/
theorem intersectLine_fst {x : ℚ} {a b p : ℚ × ℚ}
    (h : intersectLine x a b = some p) : p.1 = x := by
  unfold intersectLine at h
  split at h
  · exact (congrArg Prod.fst (Option.some.inj h)).symm ▸ rfl
  · split at h
    · exact (congrArg Prod.fst (Option.some.inj h)).symm ▸ rfl
    · cases h

/-- The Python `min` returns a member of its list. -/
theorem minByAbs_mem {y : ℚ} {l : List Collision} {c : Collision}
    (h : minByAbs y l = some c) : c ∈ l := by
  unfold minByAbs at h
  suffices haux : ∀ (init : Option Collision),
      l.foldl (fun acc d =>
        match acc with
        | none => some d
        | some b => if |d.pt.2 - y| < |b.pt.2 - y| then some d else some b)
        init = some c → init = some c ∨ c ∈ l by
    rcases haux none h with hc | hc
    · cases hc
    · exact hc
  clear h
  induction l with
  | nil => intro init h; exact Or.inl h
  | cons d l ih =>
      intro init h
      rw [List.foldl_cons] at h
      rcases ih _ h with hstep | hmem
      · cases init with
        | none =>
            simp only at hstep
            exact Or.inr (List.mem_cons.mpr (Or.inl (Option.some.inj hstep).symm))
        | some b =>
            simp only at hstep
            by_cases hlt : |d.pt.2 - y| < |b.pt.2 - y|
            · rw [if_pos hlt] at hstep
              exact Or.inr (List.mem_cons.mpr (Or.inl (Option.some.inj hstep).symm))
            · rw [if_neg hlt] at hstep
              exact Or.inl hstep
      · exact Or.inr (List.mem_cons.mpr (Or.inr hmem))

/-- `hasEdge` distributes over append. -/
theorem hasEdge_append {G1 G2 : List (ℕ × ℕ × ℕ)} {u v : ℕ} :
    hasEdge (G1 ++ G2) u v = (hasEdge G1 u v || hasEdge G2 u v) := by
  simp [hasEdge, List.any_append]

/-- No edge touches a vertex id at or beyond the bound of a well-formed
edge list. -/
theorem hasEdge_false_of_bounds {G : List (ℕ × ℕ × ℕ)} {u v n : ℕ}
    (hb : ∀ e ∈ G, e.1 < n ∧ e.2.1 < n) (h : n ≤ u ∨ n ≤ v) :
    hasEdge G u v = false := by
  rw [hasEdge_eq_false]
  rintro e he ⟨h1, h2⟩
  rcases h with hu | hv
  · exact absurd ((hb e he).1) (not_lt.mpr (h1 ▸ hu))
  · exact absurd ((hb e he).2) (not_lt.mpr (h2 ▸ hv))

/-- Every collision in the probe list of `_get_intersects` is sound. -/
theorem mem_collisions_char (w : World) (event : ℕ) {c : Collision}
    (h : c ∈ (w.G.filter (checkEdge w.points (getPt w.points event).1)).filterMap
      (fun e =>
        (intersectLine (getPt w.points event).1 (getPt w.points e.1)
          (getPt w.points e.2.1)).map
            (fun p => (⟨event, p, (e.1, e.2.1), e.2.2⟩ : Collision)))) :
    CollisionOK w event c := by
  rw [List.mem_filterMap] at h
  obtain ⟨e, he, hfe⟩ := h
  rw [List.mem_filter] at he
  rw [Option.map_eq_some'] at hfe
  obtain ⟨p, hp, hmk⟩ := hfe
  obtain ⟨e1, e2, e3⟩ := e
  subst hmk
  exact ⟨he.1, he.2, hp⟩

/-- What `_get_intersects` returns: sound collisions, strictly above
respectively strictly below the event vertex. -/
theorem getIntersects_char (w : World) (event : ℕ) :
    (∀ a, (getIntersects w event).1 = some a →
       CollisionOK w event a ∧ (getPt w.points event).2 < a.pt.2) ∧
    (∀ b, (getIntersects w event).2 = some b →
       CollisionOK w event b ∧ b.pt.2 < (getPt w.points event).2) := by
  constructor
  · intro a ha
    simp only [getIntersects] at ha
    have hmem := minByAbs_mem ha
    rw [List.mem_filter] at hmem
    refine ⟨mem_collisions_char w event hmem.1, ?_⟩
    have := hmem.2
    simpa using this
  · intro b hb
    simp only [getIntersects] at hb
    have hmem := minByAbs_mem hb
    rw [List.mem_filter] at hmem
    refine ⟨mem_collisions_char w event hmem.1, ?_⟩
    have := hmem.2
    simpa using this

/-- The hit edge of a sound collision does not touch the event vertex, its
endpoints are in range, and its weight is nonzero. -/
theorem collision_facts (w : World) (event : ℕ) (c : Collision)
    (hwf : WFW w) (hok : CollisionOK w event c) :
    c.edge.1 < w.points.length ∧ c.edge.2 < w.points.length ∧ c.edgew ≠ 0 ∧
      c.edge.1 ≠ event ∧ c.edge.2 ≠ event ∧
      c.pt.1 = (getPt w.points event).1 := by
  obtain ⟨hmem, hchk, hil⟩ := hok
  obtain ⟨hb1, hb2, hw0⟩ := hwf.1 _ hmem
  obtain ⟨hx1, hx2, _⟩ := checkEdge_facts hchk
  refine ⟨hb1, hb2, hw0, ?_, ?_, intersectLine_fst hil⟩
  · intro hc; rw [hc] at hx1; exact hx1 rfl
  · intro hc; rw [hc] at hx2; exact hx2 rfl

/-- Explicit form of the insertion block: under well-formedness the four
`add_edge` calls are plain appends, so the block appends the hit point, the
chord pair and the two halves of the split edge, then removes the hit
edge. -/
theorem insertSide_G (w : World) (event : ℕ) (et : Ev) (c : Collision)
    (ab : Bool) (hwf : WFW w) (hev : event < w.points.length)
    (hmem : (c.edge.1, c.edge.2, c.edgew) ∈ w.G)
    (hchk : checkEdge w.points (getPt w.points event).1
      (c.edge.1, c.edge.2, c.edgew) = true)
    (hsm : isSM et = true) :
    insertSide w event et c ab =
      (⟨w.points ++ [c.pt],
        removeEdge (w.G ++ chordPair w.points.length event ab ++
          [(c.edge.1, w.points.length, c.edgew),
           (w.points.length, c.edge.2, c.edgew)]) c.edge.1 c.edge.2⟩,
       w.points.length) := by
  obtain ⟨hb1, hb2, hw0⟩ := hwf.1 _ hmem
  obtain ⟨hx1, hx2, _⟩ := checkEdge_facts hchk
  have hne0 : c.edge.1 ≠ event := fun hc => by rw [hc] at hx1; exact hx1 rfl
  have hne1 : c.edge.2 ≠ event := fun hc => by rw [hc] at hx2; exact hx2 rfl
  set n := w.points.length with hn
  have hbounds : ∀ e ∈ w.G, e.1 < n ∧ e.2.1 < n :=
    fun e he => ⟨(hwf.1 e he).1, (hwf.1 e he).2.1⟩
  have hEvn : event ≠ n := ne_of_lt hev
  have hplen : (w.points ++ [c.pt]).length - 1 = n := by simp [hn]
  have hf1t : hasEdge w.G n event = false :=
    hasEdge_false_of_bounds hbounds (Or.inl (le_refl n))
  have hf1f : hasEdge w.G event n = false :=
    hasEdge_false_of_bounds hbounds (Or.inr (le_refl n))
  have hsing : ∀ a b wgt u v : ℕ, ¬(a = u ∧ b = v) →
      hasEdge [(a, b, wgt)] u v = false := by
    intro a b wgt u v h
    rw [hasEdge_eq_false]
    intro e he
    simp only [List.mem_singleton] at he
    subst he
    exact h
  have hGe1n : hasEdge w.G c.edge.1 n = false :=
    hasEdge_false_of_bounds hbounds (Or.inr (le_refl n))
  have hGnE2 : hasEdge w.G n c.edge.2 = false :=
    hasEdge_false_of_bounds hbounds (Or.inl (le_refl n))
  have hf2t : hasEdge (w.G ++ [(n, event, 3)]) event n = false := by
    rw [hasEdge_append, hf1f, hsing n event 3 event n (fun hc => hEvn hc.1.symm)]
    rfl
  have hf2f : hasEdge (w.G ++ [(event, n, 3)]) n event = false := by
    rw [hasEdge_append, hf1t, hsing event n 3 n event (fun hc => hEvn hc.1)]
    rfl
  have hf3t : hasEdge ((w.G ++ [(n, event, 3)]) ++ [(event, n, 4)])
      c.edge.1 n = false := by
    rw [hasEdge_append, hasEdge_append, hGe1n,
      hsing n event 3 c.edge.1 n (fun hc => ne_of_lt hb1 hc.1.symm),
      hsing event n 4 c.edge.1 n (fun hc => hne0 hc.1.symm)]
    rfl
  have hf3f : hasEdge ((w.G ++ [(event, n, 3)]) ++ [(n, event, 4)])
      c.edge.1 n = false := by
    rw [hasEdge_append, hasEdge_append, hGe1n,
      hsing event n 3 c.edge.1 n (fun hc => hne0 hc.1.symm),
      hsing n event 4 c.edge.1 n (fun hc => ne_of_lt hb1 hc.1.symm)]
    rfl
  have hf4t : hasEdge (((w.G ++ [(n, event, 3)]) ++ [(event, n, 4)]) ++
      [(c.edge.1, n, c.edgew)]) n c.edge.2 = false := by
    rw [hasEdge_append, hasEdge_append, hasEdge_append, hGnE2,
      hsing n event 3 n c.edge.2 (fun hc => hne1 hc.2.symm),
      hsing event n 4 n c.edge.2 (fun hc => hEvn hc.1),
      hsing c.edge.1 n c.edgew n c.edge.2 (fun hc => ne_of_lt hb1 hc.1)]
    rfl
  have hf4f : hasEdge (((w.G ++ [(event, n, 3)]) ++ [(n, event, 4)]) ++
      [(c.edge.1, n, c.edgew)]) n c.edge.2 = false := by
    rw [hasEdge_append, hasEdge_append, hasEdge_append, hGnE2,
      hsing event n 3 n c.edge.2 (fun hc => hEvn hc.1),
      hsing n event 4 n c.edge.2 (fun hc => hne1 hc.2.symm),
      hsing c.edge.1 n c.edgew n c.edge.2 (fun hc => ne_of_lt hb1 hc.1)]
    rfl
  unfold insertSide
  simp only [hplen]
  cases et with
  | SPLIT =>
      cases ab with
      | false =>
          simp only [Bool.false_eq_true, reduceIte]
          rw [addEdge_not_present hf1f, addEdge_not_present hf2f,
            addEdge_not_present hf3f, addEdge_not_present hf4f]
          simp [chordPair, List.append_assoc]
      | true =>
          simp only [reduceIte]
          rw [addEdge_not_present hf1t, addEdge_not_present hf2t,
            addEdge_not_present hf3t, addEdge_not_present hf4t]
          simp [chordPair, List.append_assoc]
  | MERGE =>
      cases ab with
      | false =>
          simp only [Bool.false_eq_true, reduceIte]
          rw [addEdge_not_present hf1f, addEdge_not_present hf2f]
          rw [ite_self]
          rw [addEdge_not_present hf3f, addEdge_not_present hf4f]
          simp [chordPair, List.append_assoc]
      | true =>
          simp only [reduceIte]
          rw [addEdge_not_present hf1t, addEdge_not_present hf2t]
          rw [ite_self]
          rw [addEdge_not_present hf3t, addEdge_not_present hf4t]
          simp [chordPair, List.append_assoc]
  | CLOSE => exact absurd hsm (by decide)
  | OPEN => exact absurd hsm (by decide)
  | INFLECTION => exact absurd hsm (by decide)
  | INTERSECT => exact absurd hsm (by decide)

/-- Two member edges with the same endpoints have the same weight. -/
theorem weight_unique {G : List (ℕ × ℕ × ℕ)} {u v w1 w2 : ℕ}
    (hnd : (G.map (fun e => (e.1, e.2.1))).Nodup)
    (h1 : (u, v, w1) ∈ G) (h2 : (u, v, w2) ∈ G) : w1 = w2 := by
  have e1 := getWeight_eq_of_mem hnd h1
  have e2 := getWeight_eq_of_mem hnd h2
  rw [e1] at e2
  exact e2

/-- The weight of a hit edge is neither 3 nor 4: chords are vertical and a
hit edge strictly straddles the probe line. -/
theorem hit_weight_not_chord (w : World) (event : ℕ) (c : Collision)
    (hinv : ChordInv w) (hok : CollisionOK w event c) :
    c.edgew ≠ 3 ∧ c.edgew ≠ 4 := by
  obtain ⟨hmem, hchk, _⟩ := hok
  have hxx := (checkEdge_facts hchk).2.2
  constructor
  · intro hc
    exact hxx ((hinv _ hmem (Or.inl hc)).1)
  · intro hc
    exact hxx ((hinv _ hmem (Or.inr hc)).1)

/-- Membership in the graph produced by the insertion block. -/
theorem mem_insertSide (w : World) (event : ℕ) (et : Ev) (c : Collision)
    (ab : Bool) (hwf : WFW w) (hev : event < w.points.length)
    (hok : CollisionOK w event c) (hsm : isSM et = true) {f : ℕ × ℕ × ℕ} :
    f ∈ (insertSide w event et c ab).1.G ↔
      ((f ∈ w.G ∨ f ∈ chordPair w.points.length event ab ∨
        f = (c.edge.1, w.points.length, c.edgew) ∨
        f = (w.points.length, c.edge.2, c.edgew)) ∧
       ¬(f.1 = c.edge.1 ∧ f.2.1 = c.edge.2)) := by
  rw [insertSide_G w event et c ab hwf hev hok.1 hok.2.1 hsm]
  simp only [mem_removeEdge, List.mem_append, List.mem_cons,
    List.mem_singleton, List.not_mem_nil, or_false]
  tauto

/-- The insertion block appends exactly one point and returns its index. -/
theorem insertSide_points (w : World) (event : ℕ) (et : Ev) (c : Collision)
    (ab : Bool) (hwf : WFW w) (hev : event < w.points.length)
    (hok : CollisionOK w event c) (hsm : isSM et = true) :
    (insertSide w event et c ab).1.points = w.points ++ [c.pt] ∧
      (insertSide w event et c ab).2 = w.points.length := by
  rw [insertSide_G w event et c ab hwf hev hok.1 hok.2.1 hsm]
  exact ⟨rfl, rfl⟩

/-- Unrelated old edges survive the insertion block. -/
theorem insertSide_persist (w : World) (event : ℕ) (et : Ev) (c : Collision)
    (ab : Bool) (hwf : WFW w) (hev : event < w.points.length)
    (hok : CollisionOK w event c) (hsm : isSM et = true) {f : ℕ × ℕ × ℕ}
    (hf : f ∈ w.G) (hne : ¬(f.1 = c.edge.1 ∧ f.2.1 = c.edge.2)) :
    f ∈ (insertSide w event et c ab).1.G :=
  (mem_insertSide w event et c ab hwf hev hok hsm).mpr ⟨Or.inl hf, hne⟩

/-- The chord pair added by the insertion block is present afterwards. -/
theorem insertSide_chords (w : World) (event : ℕ) (et : Ev) (c : Collision)
    (ab : Bool) (hwf : WFW w) (hev : event < w.points.length)
    (hok : CollisionOK w event c) (hsm : isSM et = true) :
    ∀ f ∈ chordPair w.points.length event ab,
      f ∈ (insertSide w event et c ab).1.G := by
  intro f hf
  obtain ⟨hb1, hb2, _, hne0, hne1, _⟩ := collision_facts w event c hwf hok
  refine (mem_insertSide w event et c ab hwf hev hok hsm).mpr
    ⟨Or.inr (Or.inl hf), ?_⟩
  unfold chordPair at hf
  cases ab <;> simp only [Bool.false_eq_true, reduceIte, List.mem_cons,
      List.mem_singleton, List.not_mem_nil, or_false] at hf <;>
    rcases hf with rfl | rfl <;> rintro ⟨h1, h2⟩ <;>
    first
      | exact hne0 h1.symm
      | exact absurd h1.symm (ne_of_lt hb1)

/-- The two halves of the split hit edge are present afterwards. -/
theorem insertSide_splits (w : World) (event : ℕ) (et : Ev) (c : Collision)
    (ab : Bool) (hwf : WFW w) (hev : event < w.points.length)
    (hok : CollisionOK w event c) (hsm : isSM et = true) :
    (c.edge.1, w.points.length, c.edgew) ∈ (insertSide w event et c ab).1.G ∧
      (w.points.length, c.edge.2, c.edgew) ∈ (insertSide w event et c ab).1.G := by
  obtain ⟨hb1, hb2, _, hne0, hne1, _⟩ := collision_facts w event c hwf hok
  constructor
  · refine (mem_insertSide w event et c ab hwf hev hok hsm).mpr
      ⟨Or.inr (Or.inr (Or.inl rfl)), ?_⟩
    rintro ⟨h1, h2⟩
    exact absurd h2.symm (ne_of_lt hb2)
  · refine (mem_insertSide w event et c ab hwf hev hok hsm).mpr
      ⟨Or.inr (Or.inr (Or.inr rfl)), ?_⟩
    rintro ⟨h1, h2⟩
    exact absurd h1.symm (ne_of_lt hb1)

/-- The hit edge is gone after the insertion block. -/
theorem insertSide_removed (w : World) (event : ℕ) (et : Ev) (c : Collision)
    (ab : Bool) (hwf : WFW w) (hev : event < w.points.length)
    (hok : CollisionOK w event c) (hsm : isSM et = true) :
    hasEdge (insertSide w event et c ab).1.G c.edge.1 c.edge.2 = false := by
  rw [hasEdge_eq_false]
  intro f hf
  exact ((mem_insertSide w event et c ab hwf hev hok hsm).mp hf).2

/-- The insertion block preserves well-formedness. -/
theorem insertSide_wf (w : World) (event : ℕ) (et : Ev) (c : Collision)
    (ab : Bool) (hwf : WFW w) (hev : event < w.points.length)
    (hok : CollisionOK w event c) (hsm : isSM et = true) :
    WFW (insertSide w event et c ab).1 := by
  obtain ⟨hb1, hb2, hw0, hne0, hne1, hptx⟩ := collision_facts w event c hwf hok
  have hG := insertSide_G w event et c ab hwf hev hok.1 hok.2.1 hsm
  have hlen : (insertSide w event et c ab).1.points.length =
      w.points.length + 1 := by rw [hG]; simp
  constructor
  · intro f hf
    rw [mem_insertSide w event et c ab hwf hev hok hsm] at hf
    rw [hlen]
    rcases hf.1 with h | h | h | h
    · obtain ⟨x1, x2, x3⟩ := hwf.1 f h
      exact ⟨lt_trans x1 (Nat.lt_succ_self _), lt_trans x2 (Nat.lt_succ_self _), x3⟩
    · unfold chordPair at h
      cases ab <;>
        simp only [Bool.false_eq_true, reduceIte, List.mem_cons,
          List.mem_singleton, List.not_mem_nil, or_false] at h <;>
        rcases h with rfl | rfl <;>
        exact ⟨by dsimp only; omega, by dsimp only; omega, by dsimp only; omega⟩
    · subst h
      exact ⟨by dsimp only; omega, by dsimp only; omega, by dsimp only; exact hw0⟩
    · subst h
      exact ⟨by dsimp only; omega, by dsimp only; omega, by dsimp only; exact hw0⟩
  · rw [hG]
    simp only
    refine List.Nodup.sublist (List.Sublist.map _ (List.filter_sublist _)) ?_
    rw [List.map_append, List.map_append, List.nodup_append, List.nodup_append]
    have hEvn : event ≠ w.points.length := ne_of_lt hev
    refine ⟨⟨hwf.2, ?_, ?_⟩, ?_, ?_⟩
    · unfold chordPair
      cases ab <;>
        simp only [Bool.false_eq_true, reduceIte, List.map_cons, List.map_nil] <;>
        simp [Prod.ext_iff] <;> omega
    · intro p hp hq
      obtain ⟨f, hf, rfl⟩ := List.mem_map.mp hp
      obtain ⟨x1, x2, _⟩ := hwf.1 f hf
      unfold chordPair at hq
      cases ab <;>
        simp only [Bool.false_eq_true, reduceIte, List.map_cons, List.map_nil,
          List.mem_cons, List.mem_singleton, List.not_mem_nil, or_false,
          Prod.mk.injEq] at hq <;>
        omega
    · simp [Prod.ext_iff]
      omega
    · intro p hp hq
      simp only [List.map_cons, List.map_nil, List.mem_cons, List.mem_singleton,
        List.not_mem_nil, or_false] at hq
      rcases List.mem_append.mp hp with hp1 | hp2
      · obtain ⟨f, hf, rfl⟩ := List.mem_map.mp hp1
        obtain ⟨x1, x2, _⟩ := hwf.1 f hf
        rcases hq with hq | hq <;> simp only [Prod.mk.injEq] at hq <;> omega
      · unfold chordPair at hp2
        cases ab <;>
          simp only [Bool.false_eq_true, reduceIte, List.map_cons, List.map_nil,
            List.mem_cons, List.mem_singleton, List.not_mem_nil, or_false] at hp2 <;>
          rcases hp2 with rfl | rfl <;>
          rcases hq with hq | hq <;>
          simp only [Prod.mk.injEq] at hq ⊢ <;> omega

/-- The insertion block preserves the chord invariant. -/
theorem insertSide_chordInv (w : World) (event : ℕ) (et : Ev) (c : Collision)
    (ab : Bool) (hwf : WFW w) (hinv : ChordInv w)
    (hev : event < w.points.length)
    (hok : CollisionOK w event c) (hsm : isSM et = true) :
    ChordInv (insertSide w event et c ab).1 := by
  obtain ⟨hb1, hb2, hw0, hne0, hne1, hptx⟩ := collision_facts w event c hwf hok
  have hnc := hit_weight_not_chord w event c hinv hok
  have hpoints := (insertSide_points w event et c ab hwf hev hok hsm).1
  intro f hf hw34
  rw [mem_insertSide w event et c ab hwf hev hok hsm] at hf
  obtain ⟨hf1, hfne⟩ := hf
  rcases hf1 with h | h | h | h
  · obtain ⟨hxeq, hrev⟩ := hinv f h hw34
    obtain ⟨x1, x2, _⟩ := hwf.1 f h
    constructor
    · rw [hpoints, getPt_append_lt x1, getPt_append_lt x2]
      exact hxeq
    · refine insertSide_persist w event et c ab hwf hev hok hsm hrev ?_
      rintro ⟨h1, h2⟩
      simp only at h1 h2
      have hccc : (c.edge.1, c.edge.2, if f.2.2 = 3 then 4 else 3) ∈ w.G := by
        rw [← h1, ← h2]; exact hrev
      have heq := weight_unique hwf.2 hccc hok.1
      rcases hw34 with h3 | h4
      · rw [if_pos h3] at heq; exact hnc.2 heq.symm
      · rw [if_neg (by omega)] at heq; exact hnc.1 heq.symm
  · have hxn : (getPt (insertSide w event et c ab).1.points
        w.points.length).1 = (getPt w.points event).1 := by
      rw [hpoints, getPt_append_len, hptx]
    have hxe : getPt (insertSide w event et c ab).1.points event =
        getPt w.points event := by
      rw [hpoints, getPt_append_lt hev]
    unfold chordPair at h
    have hch := insertSide_chords w event et c ab hwf hev hok hsm
    cases ab <;>
      simp only [Bool.false_eq_true, reduceIte, List.mem_cons,
        List.mem_singleton, List.not_mem_nil, or_false] at h <;>
      rcases h with rfl | rfl
    · exact ⟨by simp only; rw [hxe, hxn], by
        simp only [reduceIte]
        exact hch _ (by unfold chordPair; simp)⟩
    · exact ⟨by simp only; rw [hxe, hxn], by
        simp only [reduceIte]
        exact hch _ (by unfold chordPair; simp)⟩
    · exact ⟨by simp only; rw [hxe, hxn], by
        simp only [reduceIte]
        exact hch _ (by unfold chordPair; simp)⟩
    · exact ⟨by simp only; rw [hxe, hxn], by
        simp only [reduceIte]
        exact hch _ (by unfold chordPair; simp)⟩
  · subst h
    simp only at hw34
    rcases hw34 with h3 | h4
    · exact absurd h3 hnc.1
    · exact absurd h4 hnc.2
  · subst h
    simp only at hw34
    rcases hw34 with h3 | h4
    · exact absurd h3 hnc.1
    · exact absurd h4 hnc.2

/-- The above hit and the below hit of one probe lie on different edges. -/
theorem hits_distinct (w : World) (event : ℕ) (a b : Collision)
    (ha : CollisionOK w event a) (hb : CollisionOK w event b)
    (hay : (getPt w.points event).2 < a.pt.2)
    (hby : b.pt.2 < (getPt w.points event).2) :
    ¬(b.edge.1 = a.edge.1 ∧ b.edge.2 = a.edge.2) := by
  rintro ⟨h1, h2⟩
  have hila := ha.2.2
  have hilb := hb.2.2
  rw [h1, h2, hila] at hilb
  have hpt : a.pt = b.pt := Option.some.inj hilb
  rw [hpt] at hay
  exact absurd hby (lt_asymm hay)

/-- A sound collision of the original world on an edge different from the
inserted one is still sound after the insertion block. -/
theorem collisionOK_transfer (w : World) (event : ℕ) (et : Ev)
    (a : Collision) (ab : Bool) (b : Collision)
    (hwf : WFW w) (hev : event < w.points.length)
    (hoka : CollisionOK w event a) (hsm : isSM et = true)
    (hokb : CollisionOK w event b)
    (hne : ¬(b.edge.1 = a.edge.1 ∧ b.edge.2 = a.edge.2)) :
    CollisionOK (insertSide w event et a ab).1 event b := by
  obtain ⟨hbmem, hbchk, hbil⟩ := hokb
  have hb1 := (hwf.1 _ hbmem).1
  have hb2 := (hwf.1 _ hbmem).2.1
  have hpoints := (insertSide_points w event et a ab hwf hev hoka hsm).1
  refine ⟨insertSide_persist w event et a ab hwf hev hoka hsm hbmem
    (by dsimp only; exact hne), ?_, ?_⟩
  · rw [hpoints, getPt_append_lt hev, checkEdge_append hb1 hb2]
    exact hbchk
  · rw [hpoints, getPt_append_lt hev, getPt_append_lt hb1, getPt_append_lt hb2]
    exact hbil

/-- `_make_splitmerge_points` preserves well-formedness and the chord
invariant, and only appends points. -/
theorem makeSplitmerge_main (w : World) (event : ℕ) (et : Ev)
    (hwf : WFW w) (hinv : ChordInv w) (hev : event < w.points.length)
    (hsm : isSM et = true) :
    WFW (makeSplitmergePoints w event et).1 ∧
      ChordInv (makeSplitmergePoints w event et).1 ∧
      ∃ ext, (makeSplitmergePoints w event et).1.points = w.points ++ ext := by
  cases hAB1 : (getIntersects w event).1 with
  | none =>
      cases hAB2 : (getIntersects w event).2 with
      | none =>
          simp only [makeSplitmergePoints, hAB1, hAB2]
          exact ⟨hwf, hinv, [], by simp⟩
      | some b =>
          have hokb := (getIntersects_char w event).2 b hAB2
          simp only [makeSplitmergePoints, hAB1, hAB2]
          exact ⟨insertSide_wf w event et b false hwf hev hokb.1 hsm,
            insertSide_chordInv w event et b false hwf hinv hev hokb.1 hsm,
            [b.pt], (insertSide_points w event et b false hwf hev hokb.1 hsm).1⟩
  | some a =>
      have hoka := (getIntersects_char w event).1 a hAB1
      have hwf1 := insertSide_wf w event et a true hwf hev hoka.1 hsm
      have hinv1 := insertSide_chordInv w event et a true hwf hinv hev hoka.1 hsm
      have hpts1 := (insertSide_points w event et a true hwf hev hoka.1 hsm).1
      have hev1 : event < (insertSide w event et a true).1.points.length := by
        rw [hpts1]; simp; omega
      cases hAB2 : (getIntersects w event).2 with
      | none =>
          simp only [makeSplitmergePoints, hAB1, hAB2]
          exact ⟨hwf1, hinv1, [a.pt], hpts1⟩
      | some b =>
          have hokb := (getIntersects_char w event).2 b hAB2
          have hne := hits_distinct w event a b hoka.1 hokb.1 hoka.2 hokb.2
          have hokb1 := collisionOK_transfer w event et a true b hwf hev
            hoka.1 hsm hokb.1 hne
          simp only [makeSplitmergePoints, hAB1, hAB2]
          refine ⟨insertSide_wf _ event et b false hwf1 hev1 hokb1 hsm,
            insertSide_chordInv _ event et b false hwf1 hinv1 hev1 hokb1 hsm,
            [a.pt] ++ [b.pt], ?_⟩
          rw [(insertSide_points _ event et b false hwf1 hev1 hokb1 hsm).1,
            hpts1, List.append_assoc]

/-- C2 (amended): at SPLIT and MERGE alike, the chord for the above hit is
added as p → v with weight 3 and v → p with weight 4, and the chord for the
below hit as v → p with weight 3 and p → v with weight 4 (the source's
SPLIT and MERGE branches are identical; the direction depends only on the
side of the hit). -/
theorem C2_chord_directions (w : World) (event : ℕ) (et : Ev)
    (hwf : WFW w) (hinv : ChordInv w) (hev : event < w.points.length)
    (hsm2 : et = Ev.SPLIT ∨ et = Ev.MERGE) :
    (∀ p, (makeSplitmergePoints w event et).2.1 = some p →
       getWeight (makeSplitmergePoints w event et).1.G p event = 3 ∧
       getWeight (makeSplitmergePoints w event et).1.G event p = 4) ∧
    (∀ q, (makeSplitmergePoints w event et).2.2 = some q →
       getWeight (makeSplitmergePoints w event et).1.G event q = 3 ∧
       getWeight (makeSplitmergePoints w event et).1.G q event = 4) := by
  have hsm : isSM et = true := by rcases hsm2 with rfl | rfl <;> decide
  cases hAB1 : (getIntersects w event).1 with
  | none =>
      cases hAB2 : (getIntersects w event).2 with
      | none =>
          simp only [makeSplitmergePoints, hAB1, hAB2]
          exact ⟨(fun p hp => nomatch hp), (fun q hq => nomatch hq)⟩
      | some b =>
          have hokb := (getIntersects_char w event).2 b hAB2
          have hwf1 := insertSide_wf w event et b false hwf hev hokb.1 hsm
          have hch := insertSide_chords w event et b false hwf hev hokb.1 hsm
          simp only [makeSplitmergePoints, hAB1, hAB2]
          refine ⟨(fun p hp => nomatch hp), fun q hq => ?_⟩
          have hq2 := Option.some.inj hq
          rw [← hq2, (insertSide_points w event et b false hwf hev hokb.1 hsm).2]
          exact ⟨getWeight_eq_of_mem hwf1.2 (hch _ (by unfold chordPair; simp)),
            getWeight_eq_of_mem hwf1.2 (hch _ (by unfold chordPair; simp))⟩
  | some a =>
      have hoka := (getIntersects_char w event).1 a hAB1
      have hwf1 := insertSide_wf w event et a true hwf hev hoka.1 hsm
      have hinv1 := insertSide_chordInv w event et a true hwf hinv hev hoka.1 hsm
      have hpts1 := (insertSide_points w event et a true hwf hev hoka.1 hsm).1
      have hcha := insertSide_chords w event et a true hwf hev hoka.1 hsm
      have hai := (insertSide_points w event et a true hwf hev hoka.1 hsm).2
      have hev1 : event < (insertSide w event et a true).1.points.length := by
        rw [hpts1]; simp; omega
      cases hAB2 : (getIntersects w event).2 with
      | none =>
          simp only [makeSplitmergePoints, hAB1, hAB2]
          refine ⟨fun p hp => ?_, (fun q hq => nomatch hq)⟩
          have hp2 := Option.some.inj hp
          rw [← hp2, hai]
          exact ⟨getWeight_eq_of_mem hwf1.2 (hcha _ (by unfold chordPair; simp)),
            getWeight_eq_of_mem hwf1.2 (hcha _ (by unfold chordPair; simp))⟩
      | some b =>
          have hokb := (getIntersects_char w event).2 b hAB2
          have hne := hits_distinct w event a b hoka.1 hokb.1 hoka.2 hokb.2
          have hokb1 := collisionOK_transfer w event et a true b hwf hev
            hoka.1 hsm hokb.1 hne
          have hwf2 := insertSide_wf _ event et b false hwf1 hev1 hokb1 hsm
          have hchb := insertSide_chords _ event et b false hwf1 hev1 hokb1 hsm
          have hblt1 : b.edge.1 < w.points.length := (hwf.1 _ hokb.1.1).1
          have hblt2 : b.edge.2 < w.points.length := (hwf.1 _ hokb.1.1).2.1
          simp only [makeSplitmergePoints, hAB1, hAB2]
          constructor
          · intro p hp
            have hp2 := Option.some.inj hp
            rw [← hp2, hai]
            have hm1 : ((w.points.length : ℕ), event, 3) ∈
                (insertSide w event et a true).1.G :=
              hcha _ (by unfold chordPair; simp)
            have hm2 : ((event : ℕ), w.points.length, 4) ∈
                (insertSide w event et a true).1.G :=
              hcha _ (by unfold chordPair; simp)
            have hm1' := insertSide_persist _ event et b false hwf1 hev1 hokb1
              hsm hm1 (by dsimp only; rintro ⟨h1, _⟩; omega)
            have hm2' := insertSide_persist _ event et b false hwf1 hev1 hokb1
              hsm hm2 (by
                dsimp only
                rintro ⟨_, h2⟩
                omega)
            exact ⟨getWeight_eq_of_mem hwf2.2 hm1', getWeight_eq_of_mem hwf2.2 hm2'⟩
          · intro q hq
            have hq2 := Option.some.inj hq
            rw [← hq2, (insertSide_points _ event et b false hwf1 hev1 hokb1 hsm).2]
            exact ⟨getWeight_eq_of_mem hwf2.2 (hchb _ (by unfold chordPair; simp)),
              getWeight_eq_of_mem hwf2.2 (hchb _ (by unfold chordPair; simp))⟩

/-- Counterexample for C2: on `mergeBelowWorld` vertex 0 is processed as a
MERGE with a below hit only; the inserted chord is v → p (edge (0, 3)) with
weight 3 and p → v (edge (3, 0)) with weight 4 — not p → v with weight 3 as
the claim states for MERGE below hits. -/
theorem C2_merge_below_cx :
    (makeSplitmergePoints mergeBelowWorld 0 Ev.MERGE).2.2 = some 3 ∧
      getWeight (makeSplitmergePoints mergeBelowWorld 0 Ev.MERGE).1.G 0 3 = 3 ∧
      getWeight (makeSplitmergePoints mergeBelowWorld 0 Ev.MERGE).1.G 3 0 = 4 ∧
      getWeight (makeSplitmergePoints mergeBelowWorld 0 Ev.MERGE).1.G 3 0 ≠ 3 := by
  refine ⟨by decide, by decide, by decide, by decide⟩

/-- Closed witness for C2 on `mergeBelowWorld` (below hit at a MERGE). -/
theorem C2_chord_directions_w :
    getWeight (makeSplitmergePoints mergeBelowWorld 0 Ev.MERGE).1.G 0 3 = 3 ∧
      getWeight (makeSplitmergePoints mergeBelowWorld 0 Ev.MERGE).1.G 3 0 = 4 :=
  (C2_chord_directions mergeBelowWorld 0 Ev.MERGE
    (by unfold WFW; exact ⟨by decide, by decide⟩)
    (by unfold ChordInv; decide) (by decide) (Or.inr rfl)).2 3 (by decide)

/-- Counterexample for C4: on `belowOnlyWorld` the probe at the MERGE vertex
0 finds no edge above; the source does not abort — it skips the above-side
insertion and continues, returning a complete result with the below chord
inserted (a partial insertion). -/
theorem C4_no_abort_cx :
    makeSplitmergePoints belowOnlyWorld 0 Ev.MERGE =
      (⟨[(1, 0), (0, -2), (2, -2), (1, -2)],
        [(0, 3, 3), (3, 0, 4), (1, 3, 1), (3, 2, 1)]⟩, (none, some 3)) := by
  decide

/-- C4 (amended): when the vertical probe finds no hit on one side at a
SPLIT/MERGE, the corresponding insertion is skipped and the decomposition
continues with the other side only; no error is raised. -/
theorem C4_skip_missing_side (w : World) (event : ℕ) (et : Ev) :
    (∀ b, (getIntersects w event).1 = none → (getIntersects w event).2 = some b →
       (makeSplitmergePoints w event et).2.1 = none ∧
       (makeSplitmergePoints w event et).2.2 = some w.points.length ∧
       (makeSplitmergePoints w event et).1.points = w.points ++ [b.pt]) ∧
    (∀ a, (getIntersects w event).1 = some a → (getIntersects w event).2 = none →
       (makeSplitmergePoints w event et).2.2 = none ∧
       (makeSplitmergePoints w event et).2.1 = some w.points.length ∧
       (makeSplitmergePoints w event et).1.points = w.points ++ [a.pt]) := by
  constructor
  · intro b h1 h2
    simp only [makeSplitmergePoints, h1, h2]
    refine ⟨trivial, ?_, ?_⟩ <;> simp [insertSide]
  · intro a h1 h2
    simp only [makeSplitmergePoints, h1, h2]
    refine ⟨trivial, ?_, ?_⟩ <;> simp [insertSide]

/-- Closed witness for C4 on `belowOnlyWorld`. -/
theorem C4_skip_missing_side_w :
    (makeSplitmergePoints belowOnlyWorld 0 Ev.MERGE).2.1 = none ∧
      (makeSplitmergePoints belowOnlyWorld 0 Ev.MERGE).2.2 = some 3 ∧
      (makeSplitmergePoints belowOnlyWorld 0 Ev.MERGE).1.points =
        belowOnlyWorld.points ++ [(1, -2)] :=
  (C4_skip_missing_side belowOnlyWorld 0 Ev.MERGE).1 ⟨0, (1, -2), (1, 2), 1⟩
    (by decide) (by decide)

/-- C7: a SPLIT/MERGE insertion on an existing edge (a, b) of weight w
removes (a, b), adds (a, p) and (p, b) with the same weight w, assigns the
new vertex the id of the point-array length before its append, and leaves
every pre-existing point entry unchanged. -/
theorem C7_edge_split (w : World) (event : ℕ) (et : Ev)
    (hwf : WFW w) (_hinv : ChordInv w) (hev : event < w.points.length)
    (hsm2 : et = Ev.SPLIT ∨ et = Ev.MERGE) :
    (∀ a, (getIntersects w event).1 = some a →
       (makeSplitmergePoints w event et).2.1 = some w.points.length ∧
       hasEdge (makeSplitmergePoints w event et).1.G a.edge.1 a.edge.2 = false ∧
       getWeight (makeSplitmergePoints w event et).1.G a.edge.1
         w.points.length = a.edgew ∧
       getWeight (makeSplitmergePoints w event et).1.G w.points.length
         a.edge.2 = a.edgew) ∧
    (∀ b, (getIntersects w event).2 = some b →
       ∃ q, (makeSplitmergePoints w event et).2.2 = some q ∧
         q + 1 = (makeSplitmergePoints w event et).1.points.length ∧
         hasEdge (makeSplitmergePoints w event et).1.G b.edge.1 b.edge.2 = false ∧
         getWeight (makeSplitmergePoints w event et).1.G b.edge.1 q = b.edgew ∧
         getWeight (makeSplitmergePoints w event et).1.G q b.edge.2 = b.edgew) ∧
    (∀ i, i < w.points.length →
       getPt (makeSplitmergePoints w event et).1.points i = getPt w.points i) := by
  have hsm : isSM et = true := by rcases hsm2 with rfl | rfl <;> decide
  refine ⟨?_, ?_, ?_⟩
  · intro a2 ha2
    cases hAB2 : (getIntersects w event).2 with
    | none =>
        have hoka := (getIntersects_char w event).1 a2 ha2
        have hwf1 := insertSide_wf w event et a2 true hwf hev hoka.1 hsm
        have hai := (insertSide_points w event et a2 true hwf hev hoka.1 hsm).2
        have hspa := insertSide_splits w event et a2 true hwf hev hoka.1 hsm
        have hrema := insertSide_removed w event et a2 true hwf hev hoka.1 hsm
        simp only [makeSplitmergePoints, ha2, hAB2]
        exact ⟨by rw [hai], hrema, getWeight_eq_of_mem hwf1.2 hspa.1,
          getWeight_eq_of_mem hwf1.2 hspa.2⟩
    | some b =>
        have hoka := (getIntersects_char w event).1 a2 ha2
        have hokb := (getIntersects_char w event).2 b hAB2
        have hwf1 := insertSide_wf w event et a2 true hwf hev hoka.1 hsm
        have hpts1 := (insertSide_points w event et a2 true hwf hev hoka.1 hsm).1
        have hai := (insertSide_points w event et a2 true hwf hev hoka.1 hsm).2
        have hspa := insertSide_splits w event et a2 true hwf hev hoka.1 hsm
        have hrema := insertSide_removed w event et a2 true hwf hev hoka.1 hsm
        have hne := hits_distinct w event a2 b hoka.1 hokb.1 hoka.2 hokb.2
        have hev1 : event < (insertSide w event et a2 true).1.points.length := by
          rw [hpts1]; simp; omega
        have hokb1 := collisionOK_transfer w event et a2 true b hwf hev
          hoka.1 hsm hokb.1 hne
        have hwf2 := insertSide_wf _ event et b false hwf1 hev1 hokb1 hsm
        have hblt1 : b.edge.1 < w.points.length := (hwf.1 _ hokb.1.1).1
        have hblt2 : b.edge.2 < w.points.length := (hwf.1 _ hokb.1.1).2.1
        have hlen1 : (insertSide w event et a2 true).1.points.length =
            w.points.length + 1 := by rw [hpts1]; simp
        obtain ⟨hc1, hc2, _, hcne0, hcne1, _⟩ :=
          collision_facts w event a2 hwf hoka.1
        simp only [makeSplitmergePoints, ha2, hAB2]
        refine ⟨by rw [hai], ?_, ?_, ?_⟩
        · rw [hasEdge_eq_false]
          intro f hf
          rw [mem_insertSide _ event et b false hwf1 hev1 hokb1 hsm] at hf
          rcases hf.1 with hfo | hfc | hfs | hfs
          · exact (hasEdge_eq_false.mp hrema) f hfo
          · unfold chordPair at hfc
            simp only [Bool.false_eq_true, reduceIte, List.mem_cons,
              List.mem_singleton, List.not_mem_nil, or_false] at hfc
            rcases hfc with rfl | rfl <;> dsimp only <;>
              rintro ⟨u1, u2⟩ <;> omega
          · subst hfs
            dsimp only
            rintro ⟨u1, u2⟩
            omega
          · subst hfs
            dsimp only
            rintro ⟨u1, u2⟩
            omega
        · refine getWeight_eq_of_mem hwf2.2
            (insertSide_persist _ event et b false hwf1 hev1 hokb1 hsm
              hspa.1 ?_)
          dsimp only
          rintro ⟨u1, u2⟩
          omega
        · refine getWeight_eq_of_mem hwf2.2
            (insertSide_persist _ event et b false hwf1 hev1 hokb1 hsm
              hspa.2 ?_)
          dsimp only
          rintro ⟨u1, u2⟩
          omega
  · intro b2 hb2
    cases hAB1 : (getIntersects w event).1 with
    | none =>
        have hokb := (getIntersects_char w event).2 b2 hb2
        have hwfb := insertSide_wf w event et b2 false hwf hev hokb.1 hsm
        have hptsb := (insertSide_points w event et b2 false hwf hev hokb.1 hsm).1
        have hq := (insertSide_points w event et b2 false hwf hev hokb.1 hsm).2
        have hspb := insertSide_splits w event et b2 false hwf hev hokb.1 hsm
        have hremb := insertSide_removed w event et b2 false hwf hev hokb.1 hsm
        simp only [makeSplitmergePoints, hAB1, hb2]
        exact ⟨w.points.length, by rw [hq], by rw [hptsb]; simp, hremb,
          getWeight_eq_of_mem hwfb.2 hspb.1, getWeight_eq_of_mem hwfb.2 hspb.2⟩
    | some a =>
        have hoka := (getIntersects_char w event).1 a hAB1
        have hokb := (getIntersects_char w event).2 b2 hb2
        have hwf1 := insertSide_wf w event et a true hwf hev hoka.1 hsm
        have hpts1 := (insertSide_points w event et a true hwf hev hoka.1 hsm).1
        have hne := hits_distinct w event a b2 hoka.1 hokb.1 hoka.2 hokb.2
        have hev1 : event < (insertSide w event et a true).1.points.length := by
          rw [hpts1]; simp; omega
        have hokb1 := collisionOK_transfer w event et a true b2 hwf hev
          hoka.1 hsm hokb.1 hne
        have hwf2 := insertSide_wf _ event et b2 false hwf1 hev1 hokb1 hsm
        have hpts2 := (insertSide_points _ event et b2 false hwf1 hev1 hokb1 hsm).1
        have hbi := (insertSide_points _ event et b2 false hwf1 hev1 hokb1 hsm).2
        have hspb := insertSide_splits _ event et b2 false hwf1 hev1 hokb1 hsm
        have hremb := insertSide_removed _ event et b2 false hwf1 hev1 hokb1 hsm
        simp only [makeSplitmergePoints, hAB1, hb2]
        exact ⟨(insertSide w event et a true).1.points.length, by rw [hbi],
          by rw [hpts2]; simp, hremb, getWeight_eq_of_mem hwf2.2 hspb.1,
          getWeight_eq_of_mem hwf2.2 hspb.2⟩
  · intro i hi
    cases hAB1 : (getIntersects w event).1 with
    | none =>
        cases hAB2 : (getIntersects w event).2 with
        | none => simp only [makeSplitmergePoints, hAB1, hAB2]
        | some b =>
            have hokb := (getIntersects_char w event).2 b hAB2
            have hptsb :=
              (insertSide_points w event et b false hwf hev hokb.1 hsm).1
            simp only [makeSplitmergePoints, hAB1, hAB2]
            rw [hptsb, getPt_append_lt hi]
    | some a =>
        have hoka := (getIntersects_char w event).1 a hAB1
        have hwf1 := insertSide_wf w event et a true hwf hev hoka.1 hsm
        have hpts1 := (insertSide_points w event et a true hwf hev hoka.1 hsm).1
        have hlen1 : (insertSide w event et a true).1.points.length =
            w.points.length + 1 := by rw [hpts1]; simp
        cases hAB2 : (getIntersects w event).2 with
        | none =>
            simp only [makeSplitmergePoints, hAB1, hAB2]
            rw [hpts1, getPt_append_lt hi]
        | some b =>
            have hokb := (getIntersects_char w event).2 b hAB2
            have hne := hits_distinct w event a b hoka.1 hokb.1 hoka.2 hokb.2
            have hev1 : event < (insertSide w event et a true).1.points.length := by
              rw [hpts1]; simp; omega
            have hokb1 := collisionOK_transfer w event et a true b hwf hev
              hoka.1 hsm hokb.1 hne
            have hpts2 :=
              (insertSide_points _ event et b false hwf1 hev1 hokb1 hsm).1
            simp only [makeSplitmergePoints, hAB1, hAB2]
            rw [hpts2, getPt_append_lt (by rw [hlen1]; omega), hpts1,
              getPt_append_lt hi]

/-- Closed witness for C7 on `aboveOnlyWorld` (above hit at a SPLIT): the
new vertex gets id 3, edge (1, 2) is replaced by (1, 3) and (3, 2) of the
same weight. -/
theorem C7_edge_split_w :
    (makeSplitmergePoints aboveOnlyWorld 0 Ev.SPLIT).2.1 = some 3 ∧
      hasEdge (makeSplitmergePoints aboveOnlyWorld 0 Ev.SPLIT).1.G 1 2 = false ∧
      getWeight (makeSplitmergePoints aboveOnlyWorld 0 Ev.SPLIT).1.G 1 3 = 1 ∧
      getWeight (makeSplitmergePoints aboveOnlyWorld 0 Ev.SPLIT).1.G 3 2 = 1 :=
  (C7_edge_split aboveOnlyWorld 0 Ev.SPLIT
    (by unfold WFW; exact ⟨by decide, by decide⟩)
    (by unfold ChordInv; decide) (by decide) (Or.inl rfl)).1
    ⟨0, (1, 4), (1, 2), 1⟩ (by decide)

/-- One classification step preserves well-formedness and the chord
invariant, and only appends points. -/
theorem nodeClassify_step (s : SState) (v : ℕ)
    (hwf : WFW s.w) (hinv : ChordInv s.w) (hv : v < s.w.points.length) :
    WFW (nodeClassify s v).w ∧ ChordInv (nodeClassify s v).w ∧
      ∃ ext, (nodeClassify s v).w.points = s.w.points ++ ext := by
  unfold nodeClassify
  cases hlu : checkLU s.w v with
  | none => exact ⟨hwf, hinv, [], by simp⟩
  | some et =>
      simp only
      by_cases hsm : isSM et = true
      · rw [if_pos hsm]
        obtain ⟨hw1, hi1, ext, hext⟩ := makeSplitmerge_main s.w v et hwf hinv hv hsm
        exact ⟨hw1, hi1, ext, hext⟩
      · rw [if_neg hsm]
        exact ⟨hwf, hinv, [], by simp⟩

/-- Classification of any event list preserves well-formedness and the
chord invariant. -/
theorem sweep_inv (l : List ℕ) :
    ∀ (s : SState), WFW s.w → ChordInv s.w →
      (∀ v ∈ l, v < s.w.points.length) →
      WFW (l.foldl nodeClassify s).w ∧ ChordInv (l.foldl nodeClassify s).w := by
  induction l with
  | nil => intro s h1 h2 _; exact ⟨h1, h2⟩
  | cons v l ih =>
      intro s h1 h2 h3
      rw [List.foldl_cons]
      obtain ⟨hw1, hi1, ext, hext⟩ := nodeClassify_step s v h1 h2 (h3 v (by simp))
      refine ih (nodeClassify s v) hw1 hi1 ?_
      intro u hu
      have hu2 := h3 u (by simp [hu])
      rw [hext, List.length_append]
      omega

/-- C6: starting from an input graph whose weights are all 1 or 2, at every
stage of the sweep (after any prefix `pfx` of the event list has been
classified and augmented) every directed edge of weight 3 has its reverse
edge present with weight 4; in particular the edge-splitting step never
removes one side of a chord pair. -/
theorem C6_chord_pairs (w : World) (h1 : WFW w)
    (h2 : ∀ e ∈ w.G, e.2.2 = 1 ∨ e.2.2 = 2) (pfx : List ℕ)
    (h3 : ∀ v ∈ pfx, v < w.points.length) :
    ∀ u v, getWeight (sweepWorld w pfx).G u v = 3 →
      getWeight (sweepWorld w pfx).G v u = 4 := by
  have hinv0 : ChordInv w := by
    intro e he hw34
    rcases h2 e he with h | h <;> rcases hw34 with h4 | h4 <;> omega
  unfold sweepWorld sweepState
  obtain ⟨hwfS, hinvS⟩ := sweep_inv pfx ⟨w, [], [], []⟩ h1 hinv0 h3
  intro u v huv
  have hne : getWeight (pfx.foldl nodeClassify ⟨w, [], [], []⟩).w.G u v ≠ 0 := by
    rw [huv]; omega
  have hmem := mem_of_getWeight_ne_zero hne
  rw [huv] at hmem
  have hrev := (hinvS _ hmem (Or.inl rfl)).2
  dsimp only at hrev
  rw [if_pos rfl] at hrev
  exact getWeight_eq_of_mem hwfS.2 hrev

/-- Closed witness for C6 on the pentagon: after the full sweep the chord
inserted above the MERGE vertex 4 is the weight-3 edge (5, 4), and its
reverse (4, 5) indeed has weight 4. -/
theorem C6_chord_pairs_w :
    getWeight (sweepWorld pentWorld [0, 3, 4, 2, 1]).G 5 4 = 3 ∧
      getWeight (sweepWorld pentWorld [0, 3, 4, 2, 1]).G 4 5 = 4 :=
  ⟨by decide,
    C6_chord_pairs pentWorld (by unfold WFW; exact ⟨by decide, by decide⟩)
      (by decide) [0, 3, 4, 2, 1] (by decide) 5 4 (by decide)⟩

/-- Correctness of the exact sort-key comparison: `keyLT (c1, n1) (c2, n2)`
decides the real inequality `c1 / √n1 < c2 / √n2` that Python compares with
floats when sorting `_right_turn` values (for positive squared-norm
products `n1`, `n2`). -/
theorem keyLT_iff (c1 n1 c2 n2 : ℚ) (h1 : 0 < n1) (h2 : 0 < n2) :
    keyLT (c1, n1) (c2, n2) = true ↔
      (c1 : ℝ) / Real.sqrt (n1 : ℝ) < (c2 : ℝ) / Real.sqrt (n2 : ℝ) := by
  have h1R : (0 : ℝ) < (n1 : ℝ) := by exact_mod_cast h1
  have h2R : (0 : ℝ) < (n2 : ℝ) := by exact_mod_cast h2
  have hs1 : (0 : ℝ) < Real.sqrt (n1 : ℝ) := Real.sqrt_pos.mpr h1R
  have hs2 : (0 : ℝ) < Real.sqrt (n2 : ℝ) := Real.sqrt_pos.mpr h2R
  have hq1 : Real.sqrt (n1 : ℝ) * Real.sqrt (n1 : ℝ) = (n1 : ℝ) :=
    Real.mul_self_sqrt (le_of_lt h1R)
  have hq2 : Real.sqrt (n2 : ℝ) * Real.sqrt (n2 : ℝ) = (n2 : ℝ) :=
    Real.mul_self_sqrt (le_of_lt h2R)
  rw [div_lt_div_iff₀ hs1 hs2]
  unfold keyLT
  dsimp only
  by_cases hc1 : c1 < 0
  · have hc1R : (c1 : ℝ) < 0 := by exact_mod_cast hc1
    rw [if_pos hc1]
    simp only [decide_eq_true_eq]
    by_cases hc2 : 0 ≤ c2
    · have hc2R : (0 : ℝ) ≤ (c2 : ℝ) := by exact_mod_cast hc2
      constructor
      · intro _
        calc (c1 : ℝ) * Real.sqrt (n2 : ℝ) < 0 := mul_neg_of_neg_of_pos hc1R hs2
          _ ≤ (c2 : ℝ) * Real.sqrt (n1 : ℝ) := mul_nonneg hc2R (le_of_lt hs1)
      · intro _
        exact Or.inl hc2
    · push_neg at hc2
      have hc2R : (c2 : ℝ) < 0 := by exact_mod_cast hc2
      constructor
      · rintro (hge | hsq)
        · exact absurd hge (not_le.mpr hc2)
        · have hsqR : (c2 : ℝ) * (c2 : ℝ) * (n1 : ℝ) <
              (c1 : ℝ) * (c1 : ℝ) * (n2 : ℝ) := by exact_mod_cast hsq
          nlinarith [hq1, hq2, hs1, hs2, mul_neg_of_neg_of_pos hc1R hs2,
            mul_neg_of_neg_of_pos hc2R hs1]
      · intro hlt
        refine Or.inr ?_
        have hsqR : (c2 : ℝ) * (c2 : ℝ) * (n1 : ℝ) <
            (c1 : ℝ) * (c1 : ℝ) * (n2 : ℝ) := by
          nlinarith [hq1, hq2, mul_neg_of_neg_of_pos hc2R hs1]
        exact_mod_cast hsqR
  · push_neg at hc1
    have hc1R : (0 : ℝ) ≤ (c1 : ℝ) := by exact_mod_cast hc1
    rw [if_neg (not_lt.mpr hc1)]
    simp only [decide_eq_true_eq]
    constructor
    · rintro ⟨hc2, hsq⟩
      have hc2R : (0 : ℝ) ≤ (c2 : ℝ) := by exact_mod_cast hc2
      have hsqR : (c1 : ℝ) * (c1 : ℝ) * (n2 : ℝ) <
          (c2 : ℝ) * (c2 : ℝ) * (n1 : ℝ) := by exact_mod_cast hsq
      nlinarith [mul_nonneg hc1R (le_of_lt hs2), mul_nonneg hc2R (le_of_lt hs1)]
    · intro hlt
      have hge0 : (0 : ℝ) ≤ (c1 : ℝ) * Real.sqrt (n2 : ℝ) :=
        mul_nonneg hc1R (le_of_lt hs2)
      have hc2pos : (0 : ℝ) < (c2 : ℝ) * Real.sqrt (n1 : ℝ) :=
        lt_of_le_of_lt hge0 hlt
      have hc2R : (0 : ℝ) < (c2 : ℝ) := by
        by_contra hcon
        push_neg at hcon
        exact absurd hc2pos (not_lt.mpr (mul_nonpos_of_nonpos_of_nonneg hcon
          (le_of_lt hs1)))
      refine ⟨by exact_mod_cast (le_of_lt hc2R), ?_⟩
      have hsqR : (c1 : ℝ) * (c1 : ℝ) * (n2 : ℝ) <
          (c2 : ℝ) * (c2 : ℝ) * (n1 : ℝ) := by
        nlinarith [hge0]
      exact_mod_cast hsqR

end BCD
